import Mathlib

set_option linter.unusedSectionVars false

/-!
Verification of the lock-free growable vector (`src/lock-free-vector.cpp`)
against its natural-language specification.

The development is a shallow embedding of the single-threaded semantics of
`LockFreeVector<T>`: every operation of the C++ class is translated into a
pure Lean function on an explicit state.  Machine integers are modelled as
`Nat` with explicit `% 2 ^ w` reductions where the C++ performs conversions
on `unsigned int` (32 bits) or `size_t` (64 bits).  Undefined behaviour
(`__builtin_clz(0)`, out-of-bounds array access, dereferencing a null
bucket pointer, shifting an `int` by 32 or more) is represented by `none`:
every fallible operation returns an `Option`.

In the source the element type `T` must be default-constructible; the model
uses an `Inhabited` instance and writes `default` where the C++ writes
`T()`.  In C++, `new T[n]` default-initializes the array: for class types
every slot holds `T()`, while for trivially copyable types (the drivers
instantiate `T = int`) the slots are indeterminate.  The model gives the
freshly allocated blocks `default` contents, which is exact for class
types; the divergence for trivial types is the subject of claim C5.
-/

namespace LockFreeVector

def MAX_BUCKETS : Nat := 32

def FIRST_BUCKET_SIZE : Nat := 8

/-- Write descriptor (`struct WriteDescriptor`): a one-shot announced CAS.
The source stores a raw pointer `T* loc_` to the element slot; the model
identifies the slot by its `(bucket, offset)` coordinates. -/
structure WriteDescriptor (T : Type) where
  loc_ : Nat × Nat
  old_val_ : T
  new_val_ : T
  completed_ : Bool
deriving DecidableEq

/-- Vector descriptor (`struct Descriptor`): current size, counter and the
optional pending write descriptor.  In the source `counter_` is a
`uint32_t`, so the `counter_ + 1` computed by `push_back`/`pop_back` wraps
mod `2 ^ 32`; the model keeps the field as `Nat` and performs the
reduction at those install sites (the only writes after construction), so
every reachable counter value is below `2 ^ 32`. -/
structure Descriptor (T : Type) where
  size_ : Nat
  counter_ : Nat
  pending_write_ : Option (WriteDescriptor T)
deriving DecidableEq

/-- State of a `LockFreeVector<T>` object: the array
`std::atomic<T*> memory_[MAX_BUCKETS]` of bucket pointers (a null pointer is
`none`, an allocated block is `some` of its element list) and the current
descriptor `descriptor_`. -/
structure Vec (T : Type) where
  memory_ : List (Option (List T))
  descriptor_ : Descriptor T
deriving DecidableEq

deriving instance DecidableEq for Except

variable {T : Type} [Inhabited T] [DecidableEq T]

/-- Integer binary logarithm by structural recursion on a fuel argument:
for `0 < n < 2 ^ fuel`, `ilog2 fuel n` is the zero-based position of the
most significant set bit of `n`. -/
def ilog2 : Nat → Nat → Nat
  | 0, _ => 0
  | fuel + 1, n => if n ≤ 1 then 0 else ilog2 fuel (n / 2) + 1

/-- Model of GCC `__builtin_clz` on `unsigned int`: the argument is reduced
mod `2 ^ 32` by the integral conversion, and the result is the number of
leading zero bits of the 32-bit value.  `__builtin_clz(0)` is undefined
behaviour, modelled as `none`. -/
def clz32 (x : Nat) : Option Nat :=
  if x % 2 ^ 32 = 0 then none else some (31 - ilog2 64 (x % 2 ^ 32))

/-- Index decomposition shared by `at`, `read`, `write`, `push_back` and
`pop_back` (lines 62-65, 93-96, 133-136, 181-184 of the source):

  `size_t pos = position + FIRST_BUCKET_SIZE;`
  `size_t hi_bit = __builtin_clz(pos) ^ 31;`
  `size_t bucket = hi_bit - (__builtin_clz(FIRST_BUCKET_SIZE) ^ 31);`
  `size_t index = pos ^ (1UL << hi_bit);`

The subtraction producing `bucket` is on `size_t`, hence modular mod
`2 ^ 64`; `pos` and the shifted bit are likewise `size_t` values. -/
def decompose (position : Nat) : Option (Nat × Nat) :=
  match clz32 (position + FIRST_BUCKET_SIZE), clz32 FIRST_BUCKET_SIZE with
  | some c, some cf =>
    some (((c ^^^ 31) + (2 ^ 64 - (cf ^^^ 31))) % 2 ^ 64,
      ((position + FIRST_BUCKET_SIZE) % 2 ^ 64) ^^^ ((1 <<< (c ^^^ 31)) % 2 ^ 64))
  | _, _ => none

/-- Block length computed by `allocate_bucket`
(`size_t bucket_size = FIRST_BUCKET_SIZE * (1 << bucket);`): the shift and
the multiplication are carried out on 32-bit operands and wrap mod
`2 ^ 32` before widening to `size_t`. -/
def bucket_size (bucket : Nat) : Nat :=
  (FIRST_BUCKET_SIZE * (2 ^ bucket % 2 ^ 32)) % 2 ^ 32

/-- Model of `allocate_bucket` (lines 69-79): allocate a block of
`bucket_size bucket` default-constructed elements and install it by CAS if
the slot is still null; otherwise discard it.  `1 << bucket` on a 32-bit
`int` is undefined for `bucket ≥ 32`, and so is indexing `memory_` there. -/
def allocate_bucket (s : Vec T) (bucket : Nat) : Option (Vec T) :=
  if 32 ≤ bucket then none
  else
    match s.memory_.get? bucket with
    | none => none
    | some none =>
      some { s with memory_ :=
        s.memory_.set bucket (some (List.replicate (bucket_size bucket) (default : T))) }
    | some (some _) => some s

/-- Model of `complete_write` (lines 159-174) applied to the write
descriptor reachable from the current vector descriptor.  In the source the
descriptor holds the write descriptor by pointer and every sequential call
site passes exactly that pointer, so mutating the shared `completed_` flag
is modelled by updating `pending_write_` in place.  If the descriptor is
absent or already completed nothing happens; otherwise the element slot is
CASed from `old_val_` to `new_val_` and the flag is set on either
outcome. -/
def complete_write (s : Vec T) : Option (Vec T) :=
  match s.descriptor_.pending_write_ with
  | none => some s
  | some w =>
    if w.completed_ then some s
    else
      match s.memory_.get? w.loc_.1 with
      | none => none
      | some none => none
      | some (some block) =>
        match block.get? w.loc_.2 with
        | none => none
        | some cur =>
          let s1 :=
            if cur = w.old_val_ then
              { s with memory_ :=
                s.memory_.set w.loc_.1 (some (block.set w.loc_.2 w.new_val_)) }
            else s
          some { s1 with descriptor_ :=
            { s1.descriptor_ with pending_write_ := some { w with completed_ := true } } }

/-- Model of `push_back` (lines 82-119) in a single-threaded execution: the
publishing CAS on `descriptor_` always succeeds, so the retry loop runs
exactly once.  Help the pending write, decompose the old size, allocate the
target bucket if null, announce the write descriptor
`{target_loc, T(), elem}` inside the new descriptor
`{size+1, (counter+1) % 2^32, wd}` (the counter increment is `uint32_t`
arithmetic), publish it, and finish the announced write. -/
def push_back (s0 : Vec T) (elem : T) : Option (Vec T) :=
  match (if (s0.descriptor_.pending_write_).isSome then complete_write s0 else some s0) with
  | none => none
  | some s =>
    let current := s.descriptor_
    match decompose current.size_ with
    | none => none
    | some bi =>
      match s.memory_.get? bi.1 with
      | none => none
      | some mb =>
        match (if mb.isNone then allocate_bucket s bi.1 else some s) with
        | none => none
        | some s2 =>
          match s2.memory_.get? bi.1 with
          | none => none
          | some none => none
          | some (some _) =>
            let write_operation : WriteDescriptor T :=
              { loc_ := bi, old_val_ := default, new_val_ := elem, completed_ := false }
            complete_write { s2 with descriptor_ :=
              { size_ := current.size_ + 1, counter_ := (current.counter_ + 1) % 2 ^ 32,
                pending_write_ := some write_operation } }

/-- Model of `pop_back` (lines 121-157) in a single-threaded execution.
After helping the pending write, a snapshot size of 0 throws
`std::out_of_range("empty")`, modelled as `Except.error "empty"` paired
with the (unmodified) state.  Otherwise the last slot is read, a write
descriptor `{target_addr, value, T()}` is announced inside the new
descriptor `{size-1, (counter+1) % 2^32, wd}` (`uint32_t` increment),
published, completed, and the read
value is returned. -/
def pop_back (s0 : Vec T) : Option (Except String T × Vec T) :=
  match (if (s0.descriptor_.pending_write_).isSome then complete_write s0 else some s0) with
  | none => none
  | some s =>
    let current := s.descriptor_
    if current.size_ = 0 then
      some (Except.error "empty", s)
    else
      match decompose (current.size_ - 1) with
      | none => none
      | some bi =>
        match s.memory_.get? bi.1 with
        | none => none
        | some none => none
        | some (some block) =>
          match block.get? bi.2 with
          | none => none
          | some value =>
            let write_op : WriteDescriptor T :=
              { loc_ := bi, old_val_ := value, new_val_ := default, completed_ := false }
            match complete_write { s with descriptor_ :=
              { size_ := current.size_ - 1, counter_ := (current.counter_ + 1) % 2 ^ 32,
                pending_write_ := some write_op } } with
            | none => none
            | some s2 => some (Except.ok value, s2)

/-- Model of `read` / `at` (lines 61-67, 178): decompose the index, load the
bucket pointer and return the element.  `none` models the undefined
behaviour of an out-of-range bucket, a null bucket pointer or an
out-of-block offset. -/
def read (s : Vec T) (i : Nat) : Option T :=
  match decompose i with
  | none => none
  | some bi =>
    match s.memory_.get? bi.1 with
    | none => none
    | some none => none
    | some (some block) => block.get? bi.2

/-- Model of `write` (lines 180-190): decompose the index and store the
element directly into the slot, bypassing the descriptor. -/
def write (s : Vec T) (i : Nat) (v : T) : Option (Vec T) :=
  match decompose i with
  | none => none
  | some bi =>
    match s.memory_.get? bi.1 with
    | none => none
    | some none => none
    | some (some block) =>
      if bi.2 < block.length then
        some { s with memory_ := s.memory_.set bi.1 (some (block.set bi.2 v)) }
      else none

/-- Model of `size` (line 193). -/
def size (s : Vec T) : Nat := s.descriptor_.size_

/-- Model of the constructor (lines 49-58): descriptor `{0, 0, null}`,
bucket 0 allocated with `FIRST_BUCKET_SIZE` default-constructed elements,
all other buckets null. -/
def init : Vec T :=
  { memory_ := some (List.replicate FIRST_BUCKET_SIZE (default : T)) :: List.replicate 31 none,
    descriptor_ := { size_ := 0, counter_ := 0, pending_write_ := none } }

/-- Single-threaded operations on the vector. -/
inductive Op (T : Type) where
  | push (v : T)
  | pop
  | write (i : Nat) (v : T)
  | read (i : Nat)
deriving DecidableEq

/-- One operation step.  A `pop` that throws leaves the object unchanged
(the exception escapes to the caller); a `read` leaves the state unchanged
but is undefined where `read` is. -/
def step (s : Vec T) : Op T → Option (Vec T)
  | .push v => push_back s v
  | .pop => (pop_back s).map Prod.snd
  | .write i v => write s i v
  | .read i => (read s i).map fun _ => s

/-- Run a list of operations from a state; `none` once any step is
undefined. -/
def run (s : Vec T) : List (Op T) → Option (Vec T)
  | [] => some s
  | op :: ops =>
    match step s op with
    | none => none
    | some s1 => run s1 ops

/-- Bounds discipline of the source's caller contract: every `read i` and
`write i v` in the sequence has `i < size` at the moment of the call
(`n` is the running size; a pop at size 0 throws and leaves the size 0,
which `n - 1` reproduces on `Nat`). -/
def legalFrom (n : Nat) : List (Op T) → Bool
  | [] => true
  | .push _ :: ops => legalFrom (n + 1) ops
  | .pop :: ops => legalFrom (n - 1) ops
  | .write i _ :: ops => decide (i < n) && legalFrom n ops
  | .read i :: ops => decide (i < n) && legalFrom n ops

/-- Abstract (specification-level) state: the vector as a plain list. -/
def absStep (l : List T) : Op T → List T
  | .push v => l ++ [v]
  | .pop => l.dropLast
  | .write i v => l.set i v
  | .read _ => l

/-- Abstract run. -/
def absRun (l : List T) : List (Op T) → List T
  | [] => l
  | op :: ops => absRun (absStep l op) ops

/-- Number of `push` operations in a sequence (every single-threaded push
succeeds). -/
def countPush : List (Op T) → Nat
  | [] => 0
  | .push _ :: ops => countPush ops + 1
  | .pop :: ops => countPush ops
  | .write _ _ :: ops => countPush ops
  | .read _ :: ops => countPush ops

/-- Number of successful `pop` operations in a sequence started at running
size `n` (a pop at size 0 throws and does not count). -/
def succPops (n : Nat) : List (Op T) → Nat
  | [] => 0
  | .push _ :: ops => succPops (n + 1) ops
  | .pop :: ops => if n = 0 then succPops 0 ops else succPops (n - 1) ops + 1
  | .write _ _ :: ops => succPops n ops
  | .read _ :: ops => succPops n ops

/-- Announced size after a sequence of operations starting at size `n`
(a pop at size 0 throws and leaves the size unchanged, which `n - 1`
reproduces on `Nat`). -/
def sizeAfter (n : Nat) : List (Op T) → Nat
  | [] => n
  | .push _ :: ops => sizeAfter (n + 1) ops
  | .pop :: ops => sizeAfter (n - 1) ops
  | .write _ _ :: ops => sizeAfter n ops
  | .read _ :: ops => sizeAfter n ops

/-- Modelled from the spec: "the last value stored at `i`, whether stored
by `push_back` or by `write(i, v)`".  `n` is the running size and `f` maps
each index to the last value stored there so far. -/
def lastStored (n : Nat) (f : Nat → Option T) : List (Op T) → Nat → Option T
  | [] => f
  | .push v :: ops => lastStored (n + 1) (fun j => if j = n then some v else f j) ops
  | .pop :: ops => lastStored (n - 1) f ops
  | .write i v :: ops => lastStored n (fun j => if j = i then some v else f j) ops
  | .read _ :: ops => lastStored n f ops

/-- First logical index stored in bucket `b`:
`FIRST_BUCKET_SIZE * 2 ^ b - FIRST_BUCKET_SIZE = 2 ^ (b + 3) - 8`. -/
def bucketFirst (b : Nat) : Nat := FIRST_BUCKET_SIZE * 2 ^ b - FIRST_BUCKET_SIZE

/-- Well-formedness of one bucket slot with respect to the abstract list
`l`: a null bucket may only cover indices `≥ l.length`; an allocated block
has its exact geometric length, holds `l`'s value at every offset whose
logical index is below `l.length`, and the default value elsewhere. -/
def bucketOk (l : List T) (b : Nat) : Option (List T) → Prop
  | none => l.length ≤ bucketFirst b
  | some block => block.length = FIRST_BUCKET_SIZE * 2 ^ b ∧
      ∀ off, off < FIRST_BUCKET_SIZE * 2 ^ b →
        block.getD off default =
          if bucketFirst b + off < l.length then l.getD (bucketFirst b + off) default
          else default

instance (l : List T) (b : Nat) : (mb : Option (List T)) → Decidable (bucketOk l b mb)
  | none => inferInstanceAs (Decidable (_ ≤ _))
  | some _ => inferInstanceAs (Decidable (_ ∧ _))

/-- Invariant tying a vector state to the abstract list it represents in a
single-threaded execution: 32 bucket slots; announced size = list length;
the size keeps `pos = size + FIRST_BUCKET_SIZE` inside 32 bits; any pending
write descriptor is already completed; and every bucket is well-formed. -/
def Inv (s : Vec T) (l : List T) : Prop :=
  s.memory_.length = 32 ∧
  s.descriptor_.size_ = l.length ∧
  l.length + FIRST_BUCKET_SIZE ≤ 2 ^ 32 ∧
  (s.descriptor_.pending_write_.all fun w => w.completed_) = true ∧
  ∀ b, b < 32 → bucketOk l b (s.memory_.getD b none)

instance (s : Vec T) (l : List T) : Decidable (Inv s l) :=
  inferInstanceAs (Decidable (_ ∧ _))

/-- Modelled from the spec: "let `h` be the zero-based position of the most
significant set bit of `p`" — the integer binary logarithm. -/
def msb (p : Nat) : Nat := ilog2 64 p

/-- Modelled from the spec: "bucket = `h − log2(FIRST_BUCKET_SIZE)`, offset
= `p` with bit `h` cleared, where `p = i + FIRST_BUCKET_SIZE` and `h` is
the position of the most significant set bit of `p`" (bit `h` of `p` is
set, so clearing it is XOR with `2 ^ h`). -/
def spec_decompose (i : Nat) : Nat × Nat :=
  (msb (i + FIRST_BUCKET_SIZE) - msb FIRST_BUCKET_SIZE,
   (i + FIRST_BUCKET_SIZE) ^^^ 2 ^ msb (i + FIRST_BUCKET_SIZE))

/-! ### Arithmetic groundwork -/

/-- Characterization of `ilog2`: on `0 < n < 2 ^ fuel` it returns the
position of the most significant set bit. -/
theorem ilog2_spec : ∀ (fuel n : Nat), 0 < n → n < 2 ^ fuel →
    2 ^ ilog2 fuel n ≤ n ∧ n < 2 ^ (ilog2 fuel n + 1)
  | 0, n, h1, h2 => by simp at h2; omega
  | fuel + 1, n, h1, h2 => by
    unfold ilog2
    by_cases h : n ≤ 1
    · have hn : n = 1 := by omega
      subst hn
      simp
    · simp only [if_neg h]
      have hd1 : 0 < n / 2 := by omega
      have hd2 : n / 2 < 2 ^ fuel := by
        have h2' : n < 2 ^ fuel * 2 := by rw [pow_succ] at h2; exact h2
        omega
      obtain ⟨ih1, ih2⟩ := ilog2_spec fuel (n / 2) hd1 hd2
      constructor
      · have : 2 ^ (ilog2 fuel (n / 2) + 1) = 2 ^ ilog2 fuel (n / 2) * 2 := by rw [pow_succ]
        omega
      · have : 2 ^ (ilog2 fuel (n / 2) + 1 + 1) = 2 ^ (ilog2 fuel (n / 2) + 1) * 2 := by
          rw [pow_succ]
        omega

/-- Uniqueness: `ilog2` agrees with any bit position sandwiching `n`. -/
theorem ilog2_eq (fuel n h : Nat) (h1 : 2 ^ h ≤ n) (h2 : n < 2 ^ (h + 1))
    (hf : n < 2 ^ fuel) : ilog2 fuel n = h := by
  have hpos : 0 < n := lt_of_lt_of_le (Nat.pos_pow_of_pos h (by omega)) h1
  obtain ⟨hs1, hs2⟩ := ilog2_spec fuel n hpos hf
  rcases Nat.lt_trichotomy (ilog2 fuel n) h with hlt | heq | hgt
  · have : 2 ^ (ilog2 fuel n + 1) ≤ 2 ^ h := Nat.pow_le_pow_right (by omega) (by omega)
    omega
  · exact heq
  · have : 2 ^ (h + 1) ≤ 2 ^ ilog2 fuel n := Nat.pow_le_pow_right (by omega) (by omega)
    omega

/-- Complementing with 31 undoes the `31 - ·` of the clz model. -/
theorem xor31 : ∀ c, c < 32 → (31 - c) ^^^ 31 = c := by decide

/-- XOR with a fresh top bit removes it again. -/
theorem xor_two_pow_add (L r : Nat) (hr : r < 2 ^ L) : (2 ^ L + r) ^^^ 2 ^ L = r := by
  apply Nat.eq_of_testBit_eq
  intro i
  rw [Nat.testBit_xor]
  rcases Nat.lt_trichotomy i L with hi | hi | hi
  · rw [Nat.testBit_two_pow_add_gt hi, Nat.testBit_two_pow_of_ne (by omega)]
    cases Nat.testBit r i <;> rfl
  · subst hi
    rw [Nat.testBit_two_pow_add_eq, Nat.testBit_two_pow_self, Nat.testBit_lt_two_pow hr]
    rfl
  · rw [Nat.testBit_lt_two_pow (x := 2 ^ L + r) (by
        have hle : 2 ^ (L + 1) ≤ 2 ^ i := Nat.pow_le_pow_right (by omega) (by omega)
        have heq : 2 ^ (L + 1) = 2 ^ L * 2 := by rw [pow_succ]
        omega),
      Nat.testBit_two_pow_of_ne (by omega),
      Nat.testBit_lt_two_pow (x := r) (by
        have hle : 2 ^ L ≤ 2 ^ i := Nat.pow_le_pow_right (by omega) (by omega)
        omega)]
    rfl

/-- Clearing the most significant set bit subtracts its weight. -/
theorem xor_msb_eq_sub (L p : Nat) (h1 : 2 ^ L ≤ p) (h2 : p < 2 ^ (L + 1)) :
    p ^^^ 2 ^ L = p - 2 ^ L := by
  have hr : p - 2 ^ L < 2 ^ L := by
    have : 2 ^ (L + 1) = 2 ^ L * 2 := by rw [pow_succ]
    omega
  have h := xor_two_pow_add L (p - 2 ^ L) hr
  have hp : 2 ^ L + (p - 2 ^ L) = p := by omega
  rwa [hp] at h

/-- The source decomposition, evaluated: if `2 ^ L ≤ i + FIRST_BUCKET_SIZE
< 2 ^ (L + 1)` with `3 ≤ L ≤ 31`, the code returns bucket `L - 3` and
offset `(i + FIRST_BUCKET_SIZE) - 2 ^ L`. -/
theorem decompose_eq_of_sandwich (i L : Nat) (h3 : 3 ≤ L) (h31 : L ≤ 31)
    (hle : 2 ^ L ≤ i + FIRST_BUCKET_SIZE) (hlt : i + FIRST_BUCKET_SIZE < 2 ^ (L + 1)) :
    decompose i = some (L - 3, (i + FIRST_BUCKET_SIZE) - 2 ^ L) := by
  have h8 : FIRST_BUCKET_SIZE = 8 := rfl
  have hpow : (2 : Nat) ^ (L + 1) ≤ 2 ^ 32 := Nat.pow_le_pow_right (by omega) (by omega)
  have h32 : (2 : Nat) ^ 32 = 4294967296 := by norm_num
  have h64 : (2 : Nat) ^ 64 = 18446744073709551616 := by norm_num
  have hplt : i + FIRST_BUCKET_SIZE < 2 ^ 32 := by omega
  have hL : ilog2 64 (i + FIRST_BUCKET_SIZE) = L :=
    ilog2_eq 64 _ L hle hlt (by omega)
  have hmod : (i + FIRST_BUCKET_SIZE) % 2 ^ 32 = i + FIRST_BUCKET_SIZE :=
    Nat.mod_eq_of_lt hplt
  have hc : clz32 (i + FIRST_BUCKET_SIZE) = some (31 - L) := by
    unfold clz32
    rw [hmod, if_neg (by omega), hL]
  have hcf : clz32 FIRST_BUCKET_SIZE = some 28 := by decide
  have hxor : (31 - L) ^^^ 31 = L := xor31 L (by omega)
  have hsh : (1 <<< L) = 2 ^ L := Nat.one_shiftLeft L
  have h2L : (2 : Nat) ^ L ≤ 2 ^ 31 := Nat.pow_le_pow_right (by omega) h31
  have h231 : (2 : Nat) ^ 31 = 2147483648 := by norm_num
  unfold decompose
  rw [hc, hcf]
  have hx28 : (28 : Nat) ^^^ 31 = 3 := by decide
  simp only [hxor, hx28, hsh]
  have hb : (L + (2 ^ 64 - 3)) % 2 ^ 64 = L - 3 := by omega
  have hm1 : (i + FIRST_BUCKET_SIZE) % 2 ^ 64 = i + FIRST_BUCKET_SIZE := by omega
  have hm2 : (2 : Nat) ^ L % 2 ^ 64 = 2 ^ L := by omega
  rw [hb, hm1, hm2, xor_msb_eq_sub L _ hle hlt]

/-- Decomposition of an in-range index, characterized by the position of
the most significant set bit of `pos`. -/
theorem decompose_char (i : Nat) (h : i + FIRST_BUCKET_SIZE < 2 ^ 32) :
    ∃ L, 3 ≤ L ∧ L ≤ 31 ∧ 2 ^ L ≤ i + FIRST_BUCKET_SIZE ∧
      i + FIRST_BUCKET_SIZE < 2 ^ (L + 1) ∧
      decompose i = some (L - 3, (i + FIRST_BUCKET_SIZE) - 2 ^ L) := by
  have h8 : FIRST_BUCKET_SIZE = 8 := rfl
  have h32 : (2 : Nat) ^ 32 = 4294967296 := by norm_num
  have h64 : (2 : Nat) ^ 64 = 18446744073709551616 := by norm_num
  obtain ⟨hL1, hL2⟩ := ilog2_spec 64 (i + FIRST_BUCKET_SIZE) (by omega) (by omega)
  set L := ilog2 64 (i + FIRST_BUCKET_SIZE) with hLdef
  have hL31 : L ≤ 31 := by
    by_contra hc
    have : (2 : Nat) ^ 32 ≤ 2 ^ L := Nat.pow_le_pow_right (by omega) (by omega)
    omega
  have hL3 : 3 ≤ L := by
    by_contra hc
    have : (2 : Nat) ^ (L + 1) ≤ 2 ^ 3 := Nat.pow_le_pow_right (by omega) (by omega)
    have h23 : (2 : Nat) ^ 3 = 8 := by norm_num
    omega
  exact ⟨L, hL3, hL31, hL1, hL2, decompose_eq_of_sandwich i L hL3 hL31 hL1 hL2⟩

/-- The source decomposition agrees with the spec's formula on the whole
domain where `__builtin_clz`'s argument stays a nonzero 32-bit value. -/
theorem decompose_eq_spec_of_lt (i : Nat) (h : i + FIRST_BUCKET_SIZE < 2 ^ 32) :
    decompose i = some (spec_decompose i) := by
  obtain ⟨L, h3, h31, hle, hlt, heq⟩ := decompose_char i h
  have h64 : (2 : Nat) ^ 64 = 18446744073709551616 := by norm_num
  have h32 : (2 : Nat) ^ 32 = 4294967296 := by norm_num
  have hL : msb (i + FIRST_BUCKET_SIZE) = L := ilog2_eq 64 _ L hle hlt (by omega)
  have hmsb8 : msb FIRST_BUCKET_SIZE = 3 := by decide
  unfold spec_decompose
  rw [hL, hmsb8, heq, xor_msb_eq_sub L _ hle hlt]

/-- Inverse of the decomposition: a valid `(bucket, offset)` pair is hit by
exactly the logical index `bucketFirst b + off`. -/
theorem decompose_bucket_off (b off : Nat) (hb : b ≤ 28)
    (hoff : off < FIRST_BUCKET_SIZE * 2 ^ b) :
    decompose (bucketFirst b + off) = some (b, off) := by
  have h8 : FIRST_BUCKET_SIZE = 8 := rfl
  have hpow : FIRST_BUCKET_SIZE * 2 ^ b = 2 ^ (b + 3) := by
    rw [h8]
    have h23 : (8 : Nat) = 2 ^ 3 := by norm_num
    rw [h23, ← pow_add]
    congr 1
    omega
  have hp8 : (8 : Nat) ≤ 2 ^ (b + 3) := by
    calc (8 : Nat) = 2 ^ 3 := by norm_num
    _ ≤ 2 ^ (b + 3) := Nat.pow_le_pow_right (by omega) (by omega)
  have hfirst : bucketFirst b = 2 ^ (b + 3) - 8 := by
    unfold bucketFirst
    rw [hpow, h8]
  have hoff' : off < 2 ^ (b + 3) := by
    rw [hpow] at hoff
    exact hoff
  have hsucc : (2 : Nat) ^ (b + 3 + 1) = 2 * 2 ^ (b + 3) := by
    rw [pow_succ]
    ring
  have hle : 2 ^ (b + 3) ≤ bucketFirst b + off + FIRST_BUCKET_SIZE := by
    rw [hfirst, h8]
    omega
  have hlt : bucketFirst b + off + FIRST_BUCKET_SIZE < 2 ^ (b + 3 + 1) := by
    rw [hfirst, h8, hsucc]
    omega
  have heq := decompose_eq_of_sandwich (bucketFirst b + off) (b + 3)
    (by omega) (by omega) hle hlt
  rw [heq]
  have hb3 : b + 3 - 3 = b := by omega
  have hoffeq : bucketFirst b + off + FIRST_BUCKET_SIZE - 2 ^ (b + 3) = off := by
    rw [hfirst, h8]
    omega
  rw [hb3, hoffeq]

/-- Bundled facts about the decomposition of an in-range index. -/
theorem decompose_props (i : Nat) (h : i + FIRST_BUCKET_SIZE < 2 ^ 32) :
    ∃ b off, decompose i = some (b, off) ∧ b ≤ 28 ∧
      off < FIRST_BUCKET_SIZE * 2 ^ b ∧ bucketFirst b + off = i := by
  have h8 : FIRST_BUCKET_SIZE = 8 := rfl
  obtain ⟨L, h3, h31, hle, hlt, heq⟩ := decompose_char i h
  refine ⟨L - 3, i + FIRST_BUCKET_SIZE - 2 ^ L, heq, by omega, ?_, ?_⟩
  · have hpow : FIRST_BUCKET_SIZE * 2 ^ (L - 3) = 2 ^ L := by
      rw [h8]
      have : (8 : Nat) = 2 ^ 3 := by norm_num
      rw [this, ← pow_add]
      congr 1
      omega
    rw [hpow, pow_succ] at *
    omega
  · have hpow : FIRST_BUCKET_SIZE * 2 ^ (L - 3) = 2 ^ L := by
      rw [h8]
      have : (8 : Nat) = 2 ^ 3 := by norm_num
      rw [this, ← pow_add]
      congr 1
      omega
    unfold bucketFirst
    rw [hpow, h8]
    have hp8 : (8 : Nat) ≤ 2 ^ L := by
      calc (8 : Nat) = 2 ^ 3 := by norm_num
      _ ≤ 2 ^ L := Nat.pow_le_pow_right (by omega) (by omega)
    omega

/-- An index determines its `(bucket, offset)` pair uniquely. -/
theorem decompose_index_eq (i b off : Nat) (h : i + FIRST_BUCKET_SIZE < 2 ^ 32)
    (heq : decompose i = some (b, off)) : bucketFirst b + off = i := by
  obtain ⟨b', off', heq', _, _, hidx⟩ := decompose_props i h
  rw [heq] at heq'
  cases heq'
  exact hidx

/-- The geometric block length, in range: for `b < 29` the 32-bit
multiplication in `allocate_bucket` does not wrap. -/
theorem bucket_size_eq (b : Nat) (hb : b < 29) :
    bucket_size b = FIRST_BUCKET_SIZE * 2 ^ b := by
  have h8 : FIRST_BUCKET_SIZE = 8 := rfl
  have hlt : (2 : Nat) ^ b ≤ 2 ^ 28 := Nat.pow_le_pow_right (by omega) (by omega)
  have h28 : (2 : Nat) ^ 28 = 268435456 := by norm_num
  have h32 : (2 : Nat) ^ 32 = 4294967296 := by norm_num
  unfold bucket_size
  rw [h8]
  omega

/-- `bucketFirst` is monotone and `2 ^ 32 - 8`-large from bucket 29 on. -/
theorem bucketFirst_ge_of_29 (b : Nat) (hb : 29 ≤ b) : 2 ^ 32 - 8 ≤ bucketFirst b := by
  have h8 : FIRST_BUCKET_SIZE = 8 := rfl
  have hle : (2 : Nat) ^ 29 ≤ 2 ^ b := Nat.pow_le_pow_right (by omega) hb
  have h29 : (2 : Nat) ^ 29 = 536870912 := by norm_num
  have h32 : (2 : Nat) ^ 32 = 4294967296 := by norm_num
  unfold bucketFirst
  rw [h8]
  omega

/-! ### List access bridges -/

theorem get?_eq_some_getD {α : Type} (l : List α) (n : Nat) (d : α)
    (h : n < l.length) : l.get? n = some (l.getD n d) := by
  rw [List.getD_eq_get?]
  cases hx : l.get? n with
  | none => exact absurd (List.get?_eq_none.mp hx) (by omega)
  | some x => rfl

theorem getD_append_lt {α : Type} (l l2 : List α) (i : Nat) (d : α)
    (h : i < l.length) : (l ++ l2).getD i d = l.getD i d := by
  rw [List.getD_eq_get?, List.getD_eq_get?, List.get?_append h]

theorem getD_concat_self {α : Type} (l : List α) (v : α) (d : α) :
    (l ++ [v]).getD l.length d = v := by
  rw [List.getD_eq_get?, List.get?_concat_length]
  rfl

theorem getD_set_self {α : Type} (l : List α) (i : Nat) (v : α) (d : α)
    (h : i < l.length) : (l.set i v).getD i d = v := by
  rw [List.getD_eq_get?, List.get?_set_eq_of_lt v h]
  rfl

theorem getD_set_ne {α : Type} (l : List α) (i j : Nat) (v : α) (d : α)
    (h : i ≠ j) : (l.set i v).getD j d = l.getD j d := by
  rw [List.getD_eq_get?, List.getD_eq_get?, List.get?_set_ne v l h]

theorem getD_replicate {α : Type} (n i : Nat) (a d : α) (h : i < n) :
    (List.replicate n a).getD i d = a := by
  rw [List.getD_eq_get?]
  have : (List.replicate n a).get? i = some a := by
    rw [List.get?_eq_getElem?]
    exact List.getElem?_replicate_of_lt h
  rw [this]
  rfl

theorem getD_dropLast {α : Type} (l : List α) (i : Nat) (d : α)
    (h : i < l.length - 1) : l.dropLast.getD i d = l.getD i d := by
  rw [List.dropLast_eq_take, List.getD_eq_get?, List.getD_eq_get?, List.get?_take h]

/-! ### Invariant plumbing -/

/-- Under a completed (or absent) pending write descriptor the helping
prologue of `push_back`/`pop_back` leaves the state unchanged. -/
theorem help_id (s : Vec T)
    (hp : (s.descriptor_.pending_write_.all fun w => w.completed_) = true) :
    (if (s.descriptor_.pending_write_).isSome then complete_write s else some s) = some s := by
  cases hw : s.descriptor_.pending_write_ with
  | none => simp
  | some w =>
    have hc : w.completed_ = true := by
      rw [hw] at hp
      simpa using hp
    unfold complete_write
    simp [hw, hc]

/-- Indexed read under the invariant returns the abstract list's value. -/
theorem read_eq (s : Vec T) (l : List T) (hInv : Inv s l) (i : Nat)
    (hi : i < l.length) : read s i = some (l.getD i default) := by
  obtain ⟨hmem, hsize, hcap, hpend, hbuckets⟩ := hInv
  have h8 : FIRST_BUCKET_SIZE = 8 := rfl
  obtain ⟨b, off, hdec, hb, hoff, hidx⟩ := decompose_props i (by omega)
  have hbok := hbuckets b (by omega)
  unfold read
  rw [hdec]
  dsimp only
  rw [get?_eq_some_getD s.memory_ b none (by omega)]
  cases hmb : s.memory_.getD b none with
  | none =>
    rw [hmb] at hbok
    simp only [bucketOk] at hbok
    exfalso
    omega
  | some block =>
    rw [hmb] at hbok
    simp only [bucketOk] at hbok
    obtain ⟨hlen, hcont⟩ := hbok
    have hoffblock : off < block.length := by omega
    dsimp only
    rw [get?_eq_some_getD block off default hoffblock, hcont off hoff,
      if_pos (by omega), hidx]

/-- The index `l.length` being in bucket `b`, appending a value does not
disturb the well-formedness of any other bucket. -/
theorem bucketOk_append_other (l : List T) (v : T) (b off b' : Nat)
    (hb : b ≤ 28) (hoff : off < FIRST_BUCKET_SIZE * 2 ^ b)
    (hidx : bucketFirst b + off = l.length)
    (hcap : l.length + FIRST_BUCKET_SIZE < 2 ^ 32)
    (hne : b' ≠ b) (mb : Option (List T))
    (hok : bucketOk l b' mb) : bucketOk (l ++ [v]) b' mb := by
  have h8 : FIRST_BUCKET_SIZE = 8 := rfl
  have hlen : (l ++ [v]).length = l.length + 1 := by simp
  have hkey : ∀ off', off' < FIRST_BUCKET_SIZE * 2 ^ b' →
      bucketFirst b' + off' ≠ l.length := by
    intro off' hoff' hcontra
    rcases Nat.lt_or_ge b' 29 with hb'29 | hb'29
    · have hd1 : decompose (bucketFirst b' + off') = some (b', off') :=
        decompose_bucket_off b' off' (by omega) hoff'
      have hd2 : decompose (bucketFirst b + off) = some (b, off) :=
        decompose_bucket_off b off hb hoff
      rw [hidx] at hd2
      rw [hcontra, hd2] at hd1
      simp only [Option.some.injEq, Prod.mk.injEq] at hd1
      exact hne hd1.1.symm
    · have hge := bucketFirst_ge_of_29 b' hb'29
      have h32 : (2 : Nat) ^ 32 = 4294967296 := by norm_num
      omega
  cases mb with
  | none =>
    simp only [bucketOk] at hok ⊢
    rw [hlen]
    have h0 : 0 < FIRST_BUCKET_SIZE * 2 ^ b' := by
      rw [h8]
      positivity
    have := hkey 0 h0
    omega
  | some block =>
    simp only [bucketOk] at hok ⊢
    obtain ⟨hbl, hcont⟩ := hok
    refine ⟨hbl, fun off' hoff' => ?_⟩
    rw [hcont off' hoff', hlen]
    rcases Nat.lt_trichotomy (bucketFirst b' + off') l.length with hlt | heq | hgt
    · rw [if_pos hlt, if_pos (by omega), getD_append_lt l [v] _ default hlt]
    · exact absurd heq (hkey off' hoff')
    · rw [if_neg (by omega), if_neg (by omega)]

/-- Completing the freshly announced push write installs the element at the
boundary slot and re-establishes the invariant for `l ++ [v]`. -/
theorem complete_push (M : List (Option (List T))) (l : List T) (v : T)
    (b off c : Nat)
    (hmem : M.length = 32)
    (hbuckets : ∀ b', b' < 32 → bucketOk l b' (M.getD b' none))
    (hb : b ≤ 28) (hoff : off < FIRST_BUCKET_SIZE * 2 ^ b)
    (hidx : bucketFirst b + off = l.length)
    (hcap : l.length + FIRST_BUCKET_SIZE < 2 ^ 32)
    (block : List T) (hmb : M.getD b none = some block) :
    ∃ s', complete_write
      (⟨M, ⟨l.length + 1, c, some ⟨(b, off), default, v, false⟩⟩⟩ : Vec T) = some s' ∧
      Inv s' (l ++ [v]) ∧ s'.descriptor_ = ⟨l.length + 1, c, some ⟨(b, off), default, v, true⟩⟩ := by
  have h8 : FIRST_BUCKET_SIZE = 8 := rfl
  have hbok := hbuckets b (by omega)
  rw [hmb] at hbok
  simp only [bucketOk] at hbok
  obtain ⟨hbl, hcont⟩ := hbok
  have hcur : block.getD off default = default := by
    rw [hcont off hoff, if_neg (by omega)]
  have hget : M.get? b = some (some block) := by
    rw [get?_eq_some_getD M b none (by omega), hmb]
  have hbget : block.get? off = some default := by
    rw [get?_eq_some_getD block off default (by omega), hcur]
  refine ⟨⟨M.set b (some (block.set off v)),
    ⟨l.length + 1, c, some ⟨(b, off), default, v, true⟩⟩⟩, ?_, ?_, rfl⟩
  · unfold complete_write
    dsimp only
    rw [if_neg (by simp), hget]
    dsimp only
    rw [hbget]
    dsimp only
    rw [if_pos rfl]
  · refine ⟨by simpa using hmem, by simp, by simp; omega, by simp, fun b' hb' => ?_⟩
    by_cases hbb : b' = b
    · subst hbb
      rw [getD_set_self M b' _ none (by omega)]
      simp only [bucketOk]
      refine ⟨by simpa using hbl, fun off' hoff' => ?_⟩
      by_cases hoo : off' = off
      · subst hoo
        rw [getD_set_self block off' v default (by omega), hidx,
          if_pos (by simp), getD_concat_self]
      · rw [getD_set_ne block off off' v default (fun hc => hoo hc.symm),
          hcont off' hoff']
        have hne' : bucketFirst b' + off' ≠ l.length := by omega
        have hlen : (l ++ [v]).length = l.length + 1 := by simp
        rcases Nat.lt_trichotomy (bucketFirst b' + off') l.length with hlt | heq | hgt
        · rw [if_pos hlt, hlen, if_pos (by omega), getD_append_lt l [v] _ default hlt]
        · exact absurd heq hne'
        · rw [if_neg (by omega), hlen, if_neg (by omega)]
    · rw [getD_set_ne M b b' _ none (fun hc => hbb hc.symm)]
      exact bucketOk_append_other l v b off b' hb hoff hidx hcap hbb _
        (hbuckets b' hb')

/-- `push_back` under the invariant: below the 32-bit boundary of
`__builtin_clz` it always succeeds, appends the element and installs
counter `(old + 1) % 2 ^ 32` (the `uint32_t` increment). -/
theorem push_back_inv (s : Vec T) (l : List T) (v : T) (hInv : Inv s l)
    (hcap : l.length + FIRST_BUCKET_SIZE < 2 ^ 32) :
    ∃ s', push_back s v = some s' ∧ Inv s' (l ++ [v]) ∧
      s'.descriptor_.counter_ = (s.descriptor_.counter_ + 1) % 2 ^ 32 := by
  obtain ⟨hmem, hsize, hcap', hpend, hbuckets⟩ := hInv
  obtain ⟨b, off, hdec, hb, hoff, hidx⟩ := decompose_props l.length hcap
  unfold push_back
  rw [help_id s hpend]
  dsimp only
  rw [hsize, hdec]
  dsimp only
  rw [get?_eq_some_getD s.memory_ b none (by omega)]
  dsimp only
  cases hmb : s.memory_.getD b none with
  | some block =>
    simp only [Option.isNone_some]
    rw [if_neg (by simp)]
    dsimp only
    rw [get?_eq_some_getD s.memory_ b none (by omega), hmb]
    dsimp only
    obtain ⟨s', hcw, hinv', hdesc⟩ := complete_push s.memory_ l v b off
      ((s.descriptor_.counter_ + 1) % 2 ^ 32) hmem hbuckets hb hoff hidx hcap block hmb
    exact ⟨s', hcw, hinv', by rw [hdesc]⟩
  | none =>
    simp only [Option.isNone_none]
    rw [if_pos trivial]
    have halloc : allocate_bucket s b =
        some { s with memory_ :=
          s.memory_.set b (some (List.replicate (bucket_size b) (default : T))) } := by
      unfold allocate_bucket
      rw [if_neg (by omega), get?_eq_some_getD s.memory_ b none (by omega), hmb]
    rw [halloc]
    dsimp only
    have hget2 : (s.memory_.set b (some (List.replicate (bucket_size b) (default : T)))).get? b
        = some (some (List.replicate (bucket_size b) (default : T))) :=
      List.get?_set_eq_of_lt _ (by omega)
    rw [hget2]
    dsimp only
    have hlen29 : bucket_size b = FIRST_BUCKET_SIZE * 2 ^ b := bucket_size_eq b (by omega)
    have hfirstge : l.length ≤ bucketFirst b := by
      have hx := hbuckets b (by omega)
      rw [hmb] at hx
      simpa [bucketOk] using hx
    have hbuckets2 : ∀ b', b' < 32 → bucketOk l b'
        ((s.memory_.set b (some (List.replicate (bucket_size b) (default : T)))).getD b' none) := by
      intro b' hb'
      by_cases hbb : b' = b
      · subst hbb
        rw [getD_set_self s.memory_ b' _ none (by omega)]
        simp only [bucketOk]
        refine ⟨by simp [hlen29], fun off' hoff' => ?_⟩
        rw [getD_replicate _ off' _ _ (by omega), if_neg (by omega)]
      · rw [getD_set_ne s.memory_ b b' _ none (fun hc => hbb hc.symm)]
        exact hbuckets b' hb'
    obtain ⟨s', hcw, hinv', hdesc⟩ := complete_push
      (s.memory_.set b (some (List.replicate (bucket_size b) (default : T)))) l v b off
      ((s.descriptor_.counter_ + 1) % 2 ^ 32) (by simpa using hmem) hbuckets2 hb hoff hidx hcap
      (List.replicate (bucket_size b) (default : T))
      (getD_set_self s.memory_ b _ none (by omega))
    exact ⟨s', hcw, hinv', by rw [hdesc]⟩

/-- An index lying in bucket `b` is reached by no offset of another
bucket. -/
theorem index_unique (i b off b' off' : Nat) (hb : b ≤ 28)
    (hoff : off < FIRST_BUCKET_SIZE * 2 ^ b) (hidx : bucketFirst b + off = i)
    (hcap : i + FIRST_BUCKET_SIZE < 2 ^ 32)
    (hne : b' ≠ b) (hoff' : off' < FIRST_BUCKET_SIZE * 2 ^ b') :
    bucketFirst b' + off' ≠ i := by
  intro hcontra
  rcases Nat.lt_or_ge b' 29 with hb'29 | hb'29
  · have hd1 := decompose_bucket_off b' off' (by omega) hoff'
    have hd2 := decompose_bucket_off b off hb hoff
    rw [hidx] at hd2
    rw [hcontra, hd2] at hd1
    simp only [Option.some.injEq, Prod.mk.injEq] at hd1
    exact hne hd1.1.symm
  · have hge := bucketFirst_ge_of_29 b' hb'29
    have h8 : FIRST_BUCKET_SIZE = 8 := rfl
    have h32 : (2 : Nat) ^ 32 = 4294967296 := by norm_num
    omega

/-- `pop_back` on an empty snapshot under a completed pending write throws
the distinct "empty" error and leaves the state untouched. -/
theorem pop_back_empty (s : Vec T) (hsz : s.descriptor_.size_ = 0)
    (hpend : (s.descriptor_.pending_write_.all fun w => w.completed_) = true) :
    pop_back s = some (Except.error "empty", s) := by
  unfold pop_back
  rw [help_id s hpend]
  dsimp only
  rw [if_pos hsz]

/-- `pop_back` on a non-empty vector under the invariant: returns the last
element, shrinks the abstract list, resets the slot to the default value
and bumps the counter by exactly one. -/
theorem pop_back_inv (s : Vec T) (l : List T) (hInv : Inv s l) (hne : l ≠ []) :
    ∃ s', pop_back s = some (Except.ok (l.getD (l.length - 1) default), s') ∧
      Inv s' l.dropLast ∧
      s'.descriptor_.counter_ = (s.descriptor_.counter_ + 1) % 2 ^ 32 := by
  obtain ⟨hmem, hsize, hcap', hpend, hbuckets⟩ := hInv
  have h8 : FIRST_BUCKET_SIZE = 8 := rfl
  have hlpos : 0 < l.length := List.length_pos.mpr hne
  obtain ⟨b, off, hdec, hb, hoff, hidx⟩ := decompose_props (l.length - 1) (by omega)
  have hbok := hbuckets b (by omega)
  unfold pop_back
  rw [help_id s hpend]
  dsimp only
  rw [hsize, if_neg (by omega), hdec]
  dsimp only
  rw [get?_eq_some_getD s.memory_ b none (by omega)]
  cases hmb : s.memory_.getD b none with
  | none =>
    rw [hmb] at hbok
    simp only [bucketOk] at hbok
    exfalso
    omega
  | some block =>
    rw [hmb] at hbok
    simp only [bucketOk] at hbok
    obtain ⟨hbl, hcont⟩ := hbok
    have hval : block.getD off default = l.getD (l.length - 1) default := by
      rw [hcont off hoff, if_pos (by omega), hidx]
    have hbget : block.get? off = some (l.getD (l.length - 1) default) := by
      rw [get?_eq_some_getD block off default (by omega), hval]
    dsimp only
    rw [hbget]
    dsimp only
    -- evaluate the completion of the announced pop write
    have hget : s.memory_.get? b = some (some block) := by
      rw [get?_eq_some_getD s.memory_ b none (by omega), hmb]
    have hcw : complete_write
        (⟨s.memory_, ⟨l.length - 1, (s.descriptor_.counter_ + 1) % 2 ^ 32,
          some ⟨(b, off), l.getD (l.length - 1) default, default, false⟩⟩⟩ : Vec T) =
        some ⟨s.memory_.set b (some (block.set off default)),
          ⟨l.length - 1, (s.descriptor_.counter_ + 1) % 2 ^ 32,
            some ⟨(b, off), l.getD (l.length - 1) default, default, true⟩⟩⟩ := by
      unfold complete_write
      dsimp only
      rw [if_neg (by simp), hget]
      dsimp only
      rw [hbget]
      dsimp only
      rw [if_pos rfl]
    rw [hcw]
    refine ⟨_, rfl, ?_, rfl⟩
    have hdroplen : l.dropLast.length = l.length - 1 := List.length_dropLast l
    refine ⟨by simpa using hmem, by rw [hdroplen], by rw [hdroplen]; omega, by simp,
      fun b' hb' => ?_⟩
    by_cases hbb : b' = b
    · subst hbb
      rw [getD_set_self s.memory_ b' _ none (by omega)]
      simp only [bucketOk]
      refine ⟨by simpa using hbl, fun off' hoff' => ?_⟩
      by_cases hoo : off' = off
      · subst hoo
        rw [getD_set_self block off' default default (by omega),
          if_neg (by rw [hdroplen]; omega)]
      · rw [getD_set_ne block off off' default default (fun hc => hoo hc.symm),
          hcont off' hoff']
        have hne' : bucketFirst b' + off' ≠ l.length - 1 := by omega
        rcases Nat.lt_trichotomy (bucketFirst b' + off') (l.length - 1) with hlt | heq | hgt
        · rw [if_pos (by omega), if_pos (by rw [hdroplen]; omega),
            getD_dropLast l _ default (by omega)]
        · exact absurd heq hne'
        · rw [if_neg (by omega), if_neg (by rw [hdroplen]; omega)]
    · rw [getD_set_ne s.memory_ b b' _ none (fun hc => hbb hc.symm)]
      have hok := hbuckets b' hb'
      cases hmb' : s.memory_.getD b' none with
      | none =>
        rw [hmb'] at hok
        simp only [bucketOk] at hok ⊢
        rw [hdroplen]
        omega
      | some block' =>
        rw [hmb'] at hok
        simp only [bucketOk] at hok ⊢
        obtain ⟨hbl', hcont'⟩ := hok
        refine ⟨hbl', fun off' hoff' => ?_⟩
        rw [hcont' off' hoff']
        have hne' : bucketFirst b' + off' ≠ l.length - 1 :=
          index_unique (l.length - 1) b off b' off' hb hoff hidx (by omega) hbb hoff'
        rcases Nat.lt_trichotomy (bucketFirst b' + off') (l.length - 1) with hlt | heq | hgt
        · rw [if_pos (by omega), if_pos (by rw [hdroplen]; omega),
            getD_dropLast l _ default (by omega)]
        · exact absurd heq hne'
        · rw [if_neg (by omega), if_neg (by rw [hdroplen]; omega)]

/-- `write` under the invariant, at an in-bounds index: stores the value in
the slot and leaves the descriptor untouched. -/
theorem write_inv (s : Vec T) (l : List T) (i : Nat) (v : T) (hInv : Inv s l)
    (hi : i < l.length) :
    ∃ s', write s i v = some s' ∧ Inv s' (l.set i v) ∧
      s'.descriptor_ = s.descriptor_ := by
  obtain ⟨hmem, hsize, hcap', hpend, hbuckets⟩ := hInv
  have h8 : FIRST_BUCKET_SIZE = 8 := rfl
  obtain ⟨b, off, hdec, hb, hoff, hidx⟩ := decompose_props i (by omega)
  have hbok := hbuckets b (by omega)
  unfold write
  rw [hdec]
  dsimp only
  rw [get?_eq_some_getD s.memory_ b none (by omega)]
  cases hmb : s.memory_.getD b none with
  | none =>
    rw [hmb] at hbok
    simp only [bucketOk] at hbok
    exfalso
    omega
  | some block =>
    rw [hmb] at hbok
    simp only [bucketOk] at hbok
    obtain ⟨hbl, hcont⟩ := hbok
    dsimp only
    rw [if_pos (by omega)]
    refine ⟨_, rfl, ?_, rfl⟩
    have hsetlen : (l.set i v).length = l.length := List.length_set l i v
    refine ⟨by simpa using hmem, by rw [hsetlen, hsize], by rw [hsetlen]; omega, by simpa using hpend,
      fun b' hb' => ?_⟩
    by_cases hbb : b' = b
    · subst hbb
      rw [getD_set_self s.memory_ b' _ none (by omega)]
      simp only [bucketOk]
      refine ⟨by simpa using hbl, fun off' hoff' => ?_⟩
      by_cases hoo : off' = off
      · subst hoo
        rw [getD_set_self block off' v default (by omega), hidx,
          if_pos (by rw [hsetlen]; omega), getD_set_self l i v default hi]
      · rw [getD_set_ne block off off' v default (fun hc => hoo hc.symm),
          hcont off' hoff', hsetlen]
        have hne' : bucketFirst b' + off' ≠ i := by omega
        rcases Nat.lt_or_ge (bucketFirst b' + off') l.length with hlt | hge
        · rw [if_pos hlt, if_pos hlt, getD_set_ne l i _ v default (fun hc => hne' hc.symm)]
        · rw [if_neg (by omega), if_neg (by omega)]
    · rw [getD_set_ne s.memory_ b b' _ none (fun hc => hbb hc.symm)]
      have hok := hbuckets b' hb'
      cases hmb' : s.memory_.getD b' none with
      | none =>
        rw [hmb'] at hok
        simp only [bucketOk] at hok ⊢
        rw [hsetlen]
        omega
      | some block' =>
        rw [hmb'] at hok
        simp only [bucketOk] at hok ⊢
        obtain ⟨hbl', hcont'⟩ := hok
        refine ⟨hbl', fun off' hoff' => ?_⟩
        rw [hcont' off' hoff', hsetlen]
        have hne' : bucketFirst b' + off' ≠ i :=
          index_unique i b off b' off' hb hoff hidx (by omega) hbb hoff'
        rcases Nat.lt_or_ge (bucketFirst b' + off') l.length with hlt | hge
        · rw [if_pos hlt, if_pos hlt, getD_set_ne l i _ v default (fun hc => hne' hc.symm)]
        · rw [if_neg (by omega), if_neg (by omega)]

/-- The freshly constructed vector satisfies the invariant for the empty
list. -/
theorem Inv_init : Inv (init : Vec T) [] := by
  have h8 : FIRST_BUCKET_SIZE = 8 := rfl
  refine ⟨by simp [init], rfl, by rw [h8]; norm_num, rfl, fun b hb => ?_⟩
  match b with
  | 0 =>
    have hg : (init : Vec T).memory_.getD 0 none
        = some (List.replicate FIRST_BUCKET_SIZE (default : T)) := rfl
    rw [hg]
    simp only [bucketOk]
    refine ⟨by simp, fun off hoff => ?_⟩
    rw [getD_replicate _ off _ _ (by simpa using hoff), if_neg (by simp)]
  | (b + 1) =>
    have hg : (init : Vec T).memory_.getD (b + 1) none = none := by
      show (List.replicate 31 (none : Option (List T))).getD b none = none
      rcases Nat.lt_or_ge b 31 with hb31 | hb31
      · exact getD_replicate 31 b none none hb31
      · rw [List.getD_eq_get?, List.get?_eq_none.mpr (by simpa using hb31)]
        rfl
    rw [hg]
    simp only [bucketOk]
    simp

/-- One defined step unfolds a run. -/
theorem run_cons_some (s s1 : Vec T) (op : Op T) (ops : List (Op T))
    (h : step s op = some s1) : run s (op :: ops) = run s1 ops := by
  show (match step s op with | none => none | some s2 => run s2 ops) = run s1 ops
  rw [h]

/-- At `size = 2 ^ 32 - FIRST_BUCKET_SIZE` the value `pos = size +
FIRST_BUCKET_SIZE` truncates to 0 in the `unsigned int` argument of
`__builtin_clz` and `push_back` has no defined result. -/
theorem push_back_boundary (s : Vec T) (l : List T) (v : T) (hInv : Inv s l)
    (hcap : l.length + FIRST_BUCKET_SIZE = 2 ^ 32) :
    push_back s v = none := by
  obtain ⟨hmem, hsize, hcap', hpend, hbuckets⟩ := hInv
  have hclz : clz32 (l.length + FIRST_BUCKET_SIZE) = none := by
    unfold clz32
    rw [if_pos (by rw [hcap, Nat.mod_self])]
  have hdec : decompose l.length = none := by
    unfold decompose
    rw [hclz]
  unfold push_back
  rw [help_id s hpend]
  dsimp only
  rw [hsize, hdec]

/-- Main preservation argument: a defined, bounds-disciplined run starting
from an invariant state ends in an invariant state for the abstract run. -/
theorem run_inv : ∀ (ops : List (Op T)) (s : Vec T) (l : List T), Inv s l →
    legalFrom l.length ops = true → ∀ s', run s ops = some s' →
    Inv s' (absRun l ops)
  | [], s, l, hInv, _, s', hrun => by
    unfold run at hrun
    cases hrun
    exact hInv
  | op :: ops, s, l, hInv, hleg, s', hrun => by
    cases op with
    | push v =>
      rcases Nat.lt_or_ge (l.length + FIRST_BUCKET_SIZE) (2 ^ 32) with hcap | hcap
      · obtain ⟨s1, hpb, hinv1, _⟩ := push_back_inv s l v hInv hcap
        rw [run_cons_some s s1 (Op.push v) ops hpb] at hrun
        have := run_inv ops s1 (l ++ [v]) hinv1 (by simpa using hleg) s' hrun
        simpa [absRun, absStep] using this
      · have hcap' : l.length + FIRST_BUCKET_SIZE = 2 ^ 32 := by
          obtain ⟨_, _, hc, _, _⟩ := hInv
          omega
        have hpb := push_back_boundary s l v hInv hcap'
        have hstep : step s (Op.push v) = none := hpb
        unfold run at hrun
        rw [hstep] at hrun
        cases hrun
    | pop =>
      by_cases hl : l = []
      · subst hl
        have hpb := pop_back_empty s (by exact hInv.2.1) hInv.2.2.2.1
        have hstep : step s Op.pop = some s := by
          show (pop_back s).map Prod.snd = some s
          rw [hpb]
          rfl
        rw [run_cons_some s s (Op.pop) ops hstep] at hrun
        have := run_inv ops s [] hInv (by simpa using hleg) s' hrun
        simpa [absRun, absStep] using this
      · obtain ⟨s1, hpb, hinv1, _⟩ := pop_back_inv s l hInv hl
        have hstep : step s Op.pop = some s1 := by
          show (pop_back s).map Prod.snd = some s1
          rw [hpb]
          rfl
        rw [run_cons_some s s1 (Op.pop) ops hstep] at hrun
        have hlen : l.dropLast.length = l.length - 1 := List.length_dropLast l
        have := run_inv ops s1 l.dropLast hinv1 (by rw [hlen]; simpa using hleg) s' hrun
        simpa [absRun, absStep] using this
    | write i v =>
      have hlegs : i < l.length ∧ legalFrom l.length ops = true := by
        simpa [legalFrom] using hleg
      obtain ⟨s1, hw, hinv1, _⟩ := write_inv s l i v hInv hlegs.1
      rw [run_cons_some s s1 (Op.write i v) ops hw] at hrun
      have hlen : (l.set i v).length = l.length := List.length_set l i v
      have := run_inv ops s1 (l.set i v) hinv1 (by rw [hlen]; exact hlegs.2) s' hrun
      simpa [absRun, absStep] using this
    | read i =>
      have hlegs : i < l.length ∧ legalFrom l.length ops = true := by
        simpa [legalFrom] using hleg
      have hr := read_eq s l hInv i hlegs.1
      have hstep : step s (Op.read i) = some s := by
        show (read s i).map (fun _ => s) = some s
        rw [hr]
        rfl
      rw [run_cons_some s s (Op.read i) ops hstep] at hrun
      have := run_inv ops s l hInv hlegs.2 s' hrun
      simpa [absRun, absStep] using this

/-- Length accounting for the abstract run: final length plus successful
pops equals initial length plus pushes. -/
theorem absRun_length : ∀ (ops : List (Op T)) (l : List T),
    (absRun l ops).length + succPops l.length ops = l.length + countPush ops
  | [], l => by simp [absRun, succPops, countPush]
  | Op.push v :: ops, l => by
    have ih := absRun_length ops (l ++ [v])
    simp only [List.length_append, List.length_singleton] at ih
    simp only [absRun, absStep, succPops, countPush]
    omega
  | Op.pop :: ops, l => by
    have ih := absRun_length ops l.dropLast
    rw [List.length_dropLast] at ih
    simp only [absRun, absStep, succPops, countPush]
    by_cases h : l.length = 0
    · rw [if_pos h]
      have h01 : l.length - 1 = 0 := by omega
      rw [h01] at ih
      omega
    · rw [if_neg h]
      omega
  | Op.write i v :: ops, l => by
    have ih := absRun_length ops (l.set i v)
    rw [List.length_set] at ih
    simp only [absRun, absStep, succPops, countPush]
    omega
  | Op.read i :: ops, l => by
    have ih := absRun_length ops l
    simp only [absRun, absStep, succPops, countPush]
    omega

/-- The abstract run list holds, at every in-range index, exactly the last
value stored there by a `push_back` or a `write`. -/
theorem lastStored_eq : ∀ (ops : List (Op T)) (l : List T) (f : Nat → Option T),
    (∀ j, j < l.length → f j = some (l.getD j default)) →
    ∀ i, i < (absRun l ops).length →
      lastStored l.length f ops i = some ((absRun l ops).getD i default)
  | [], l, f, hf, i, hi => by
    simp only [lastStored, absRun]
    exact hf i hi
  | Op.push v :: ops, l, f, hf, i, hi => by
    have hlen : (l ++ [v]).length = l.length + 1 := by simp
    have hf' : ∀ j, j < (l ++ [v]).length →
        (fun j => if j = l.length then some v else f j) j
          = some ((l ++ [v]).getD j default) := by
      intro j hj
      rw [hlen] at hj
      by_cases hjl : j = l.length
      · subst hjl
        rw [getD_concat_self]
        simp
      · simp only [if_neg hjl]
        rw [hf j (by omega), getD_append_lt l [v] j default (by omega)]
    simp only [absRun, absStep] at hi
    have ih := lastStored_eq ops (l ++ [v]) _ hf' i hi
    rw [hlen] at ih
    simpa only [lastStored, absRun, absStep] using ih
  | Op.pop :: ops, l, f, hf, i, hi => by
    have hlen : l.dropLast.length = l.length - 1 := List.length_dropLast l
    have hf' : ∀ j, j < l.dropLast.length → f j = some (l.dropLast.getD j default) := by
      intro j hj
      rw [hlen] at hj
      rw [hf j (by omega), getD_dropLast l j default (by omega)]
    simp only [absRun, absStep] at hi
    have ih := lastStored_eq ops l.dropLast _ hf' i hi
    rw [hlen] at ih
    simpa only [lastStored, absRun, absStep] using ih
  | Op.write k v :: ops, l, f, hf, i, hi => by
    have hlen : (l.set k v).length = l.length := List.length_set l k v
    have hf' : ∀ j, j < (l.set k v).length →
        (fun j => if j = k then some v else f j) j
          = some ((l.set k v).getD j default) := by
      intro j hj
      rw [hlen] at hj
      by_cases hjk : j = k
      · subst hjk
        rw [getD_set_self l j v default hj]
        simp
      · simp only [if_neg hjk]
        rw [hf j hj, getD_set_ne l k j v default (fun hc => hjk hc.symm)]
    simp only [absRun, absStep] at hi
    have ih := lastStored_eq ops (l.set k v) _ hf' i hi
    rw [hlen] at ih
    simpa only [lastStored, absRun, absStep] using ih
  | Op.read k :: ops, l, f, hf, i, hi => by
    simp only [absRun, absStep] at hi
    have ih := lastStored_eq ops l f hf i hi
    simpa only [lastStored, absRun, absStep] using ih

/-- `complete_write` is the identity on a state whose pending write
descriptor is absent or already marked completed. -/
theorem complete_write_completed (s : Vec T)
    (hp : (s.descriptor_.pending_write_.all fun w => w.completed_) = true) :
    complete_write s = some s := by
  cases hw : s.descriptor_.pending_write_ with
  | none =>
    unfold complete_write
    rw [hw]
  | some w =>
    have hc : w.completed_ = true := by
      rw [hw] at hp
      simpa using hp
    unfold complete_write
    rw [hw]
    dsimp only
    rw [if_pos hc]

/-! ### Claim theorems -/

/-- C1: in every bounds-disciplined single-threaded run from a fresh
vector whose every step has a defined result, `size()` equals the number
of successful `push_back` calls minus the number of successful `pop_back`
calls (stated additively over `Nat`), and for every `i < size()`, `read i`
returns the last value stored at `i`, whether by `push_back` or by
`write(i, v)`. -/
theorem c1_sequential_refinement (ops : List (Op T)) (s' : Vec T)
    (hleg : legalFrom 0 ops = true) (hrun : run init ops = some s') :
    size s' + succPops 0 ops = countPush ops ∧
    ∀ i, i < size s' → read s' i = lastStored 0 (fun _ => none) ops i := by
  have hInv := run_inv ops init [] Inv_init (by simpa using hleg) s' hrun
  have hsize : s'.descriptor_.size_ = (absRun [] ops).length := hInv.2.1
  constructor
  · have hcnt := absRun_length ops ([] : List T)
    simp only [List.length_nil] at hcnt
    unfold size
    omega
  · intro i hi
    unfold size at hi
    rw [read_eq s' (absRun [] ops) hInv i (by omega)]
    have hls := lastStored_eq ops ([] : List T) (fun _ => none)
      (by intro j hj; simp at hj) i (by omega)
    simpa using hls.symm

/-- Witness for C1 at the concrete run push 3; pop; push 5. -/
theorem c1_witness :
    legalFrom 0 [Op.push 3, Op.pop, Op.push 5] = true ∧
    run (init : Vec Nat) [Op.push 3, Op.pop, Op.push 5] =
      some ⟨some [5, 0, 0, 0, 0, 0, 0, 0] :: List.replicate 31 none,
        ⟨1, 3, some ⟨(0, 0), 0, 5, true⟩⟩⟩ ∧
    size (⟨some [5, 0, 0, 0, 0, 0, 0, 0] :: List.replicate 31 none,
        ⟨1, 3, some ⟨(0, 0), 0, 5, true⟩⟩⟩ : Vec Nat)
      + succPops 0 [Op.push 3, Op.pop, Op.push 5]
      = countPush [Op.push 3, Op.pop, Op.push 5] ∧
    read (⟨some [5, 0, 0, 0, 0, 0, 0, 0] :: List.replicate 31 none,
        ⟨1, 3, some ⟨(0, 0), 0, 5, true⟩⟩⟩ : Vec Nat) 0
      = lastStored 0 (fun _ => none) [Op.push 3, Op.pop, Op.push 5] 0 := by
  have hleg : legalFrom 0 [Op.push (3 : Nat), Op.pop, Op.push 5] = true := by decide
  have hrun : run (init : Vec Nat) [Op.push 3, Op.pop, Op.push 5] =
      some ⟨some [5, 0, 0, 0, 0, 0, 0, 0] :: List.replicate 31 none,
        ⟨1, 3, some ⟨(0, 0), 0, 5, true⟩⟩⟩ := by decide
  have h := c1_sequential_refinement [Op.push 3, Op.pop, Op.push 5] _ hleg hrun
  exact ⟨hleg, hrun, h.1, h.2 0 (by decide)⟩

/-- C2 counterexample: index `2 ^ 32 - 8` lies inside the spec's claimed
domain `[0, capacity)` with `capacity = FIRST_BUCKET_SIZE * (2 ^ 32 - 1)`,
yet there `pos = 2 ^ 32` truncates to 0 in the `unsigned int` argument of
`__builtin_clz` and the source decomposition has no defined value, while
the spec formula yields bucket 29, offset 0. -/
theorem c2_counterexample :
    decompose (2 ^ 32 - 8) = none ∧
    spec_decompose (2 ^ 32 - 8) = (29, 0) ∧
    2 ^ 32 - 8 + FIRST_BUCKET_SIZE < FIRST_BUCKET_SIZE * (2 ^ 32 - 1) := by
  refine ⟨?_, by decide, by decide⟩
  have h : clz32 (2 ^ 32 - 8 + FIRST_BUCKET_SIZE) = none := by decide
  unfold decompose
  rw [h]

/-- C2 amended: for every logical index `i` with
`i + FIRST_BUCKET_SIZE < 2 ^ 32` (rather than on all of `[0, capacity)`),
the decomposition used by at/read/write/push_back/pop_back maps `i` to
bucket `h - log2(FIRST_BUCKET_SIZE)` and offset `p` with bit `h` cleared,
where `p = i + FIRST_BUCKET_SIZE` and `h` is the position of the most
significant set bit of `p`; the five documented examples hold. -/
theorem c2_amended_decomposition (i : Nat) (h : i + FIRST_BUCKET_SIZE < 2 ^ 32) :
    decompose i = some (spec_decompose i) ∧
    decompose 0 = some (0, 0) ∧ decompose 7 = some (0, 7) ∧
    decompose 8 = some (1, 0) ∧ decompose 23 = some (1, 15) ∧
    decompose 24 = some (2, 0) :=
  ⟨decompose_eq_spec_of_lt i h, by decide, by decide, by decide, by decide, by decide⟩

/-- Witness for C2 at index 100 (bucket 3, offset 44). -/
theorem c2_witness : decompose 100 = some (spec_decompose 100) ∧
    decompose 100 = some (3, 44) := by
  have h := (c2_amended_decomposition 100 (by decide)).1
  refine ⟨h, ?_⟩
  rw [h]
  decide

/-- C3: on a vector in the empty-list invariant state, `pop_back` fails
with the distinct "empty" error and changes nothing — the state (hence the
descriptor, hence `size() = 0`) is exactly what it was — and a subsequent
`push_back` succeeds and its value can be read back. -/
theorem c3_pop_empty_atomic (s : Vec T) (hInv : Inv s []) (v : T) :
    pop_back s = some (Except.error "empty", s) ∧
    size s = 0 ∧
    ∃ s1, push_back s v = some s1 ∧ size s1 = 1 ∧ read s1 0 = some v := by
  refine ⟨pop_back_empty s hInv.2.1 hInv.2.2.2.1, hInv.2.1, ?_⟩
  obtain ⟨s1, hpb, hinv1, _⟩ := push_back_inv s [] v hInv (by norm_num [FIRST_BUCKET_SIZE])
  refine ⟨s1, hpb, by simpa using hinv1.2.1, ?_⟩
  have h := read_eq s1 ([] ++ [v]) hinv1 0 (by simp)
  simpa using h

/-- Witness for C3 at the freshly constructed vector. -/
theorem c3_witness :
    pop_back (init : Vec Nat) = some (Except.error "empty", init) ∧
    size (init : Vec Nat) = 0 ∧
    (push_back (init : Vec Nat) 42).map (fun s1 => (size s1, read s1 0))
      = some (1, some 42) := by
  obtain ⟨h1, h2, s1, h3, h4, h5⟩ := c3_pop_empty_atomic (init : Vec Nat) Inv_init 42
  refine ⟨h1, h2, ?_⟩
  rw [h3]
  dsimp only [Option.map]
  rw [h4, h5]

/-- C4 counterexample: at snapshot size `2 ^ 32 - 8` — far below the
spec's claimed cap of `2 ^ 32 * 8 - 8` — `push_back` does not append and
reports nothing: `pos = 2 ^ 32` truncates to 0 in the `unsigned int`
argument of `__builtin_clz`, so the call has no defined result, and the
source contains no capacity check or capacity error at all (its only throw
is the "empty" one in `pop_back`). -/
theorem c4_counterexample :
    push_back (⟨(init : Vec Nat).memory_, ⟨2 ^ 32 - 8, 0, none⟩⟩ : Vec Nat) 7 = none ∧
    2 ^ 32 - 8 < 2 ^ 32 * 8 - 8 := by
  constructor
  · have hclz : clz32 (2 ^ 32 - 8 + FIRST_BUCKET_SIZE) = none := by decide
    have hdec : decompose (2 ^ 32 - 8) = none := by
      unfold decompose
      rw [hclz]
    unfold push_back
    dsimp only
    rw [if_neg (by simp)]
    dsimp only
    rw [hdec]
  · decide

/-- C4 amended: `push_back` performs no capacity check and never reports a
capacity error; for every invariant state whose size keeps `size +
FIRST_BUCKET_SIZE` below `2 ^ 32` (the actual boundary, not the spec's
`2 ^ 32 * 8 - 8`), it appends the element: the new size is the old size
plus one and the pushed value is readable at the old size. -/
theorem c4_amended_push_no_capacity_error (s : Vec T) (l : List T) (v : T)
    (hInv : Inv s l) (hcap : l.length + FIRST_BUCKET_SIZE < 2 ^ 32) :
    ∃ s', push_back s v = some s' ∧ size s' = size s + 1 ∧
      read s' l.length = some v := by
  obtain ⟨s1, hpb, hinv1, _⟩ := push_back_inv s l v hInv hcap
  refine ⟨s1, hpb, ?_, ?_⟩
  · have h1 : size s1 = (l ++ [v]).length := hinv1.2.1
    have h2 : size s = l.length := hInv.2.1
    simp only [List.length_append, List.length_singleton] at h1
    omega
  · have h := read_eq s1 (l ++ [v]) hinv1 l.length (by simp)
    rw [h, getD_concat_self]

/-- Witness for C4 (amended) at the freshly constructed vector. -/
theorem c4_witness :
    (push_back (init : Vec Nat) 9).map (fun s1 => (size s1, read s1 0))
      = some (1, some 9) := by
  obtain ⟨s1, h1, h2, h3⟩ := c4_amended_push_no_capacity_error (init : Vec Nat) [] 9
    Inv_init (by norm_num [FIRST_BUCKET_SIZE])
  have h2' : size s1 = 1 := h2
  have h3' : read s1 0 = some 9 := h3
  rw [h1]
  dsimp only [Option.map]
  rw [h2', h3']

/-- C6 counterexample: `allocate_bucket 29` on a fresh vector installs a
block of length 0, not `FIRST_BUCKET_SIZE * 2 ^ 29 = 2 ^ 32`: the
`uint32_t` product `FIRST_BUCKET_SIZE * (1 << bucket)` wraps mod
`2 ^ 32`. -/
theorem c6_counterexample :
    (allocate_bucket (init : Vec Nat) 29).map
      (fun s => (s.memory_.getD 29 none).map List.length) = some (some 0) ∧
    FIRST_BUCKET_SIZE * 2 ^ 29 = 4294967296 := by
  constructor
  · decide
  · decide

/-- C6 amended: for every bucket `b < 29` the installed block has length
exactly `FIRST_BUCKET_SIZE * 2 ^ b`; in general (so for `b = 29, 30, 31`)
the installed length is `FIRST_BUCKET_SIZE * 2 ^ b` reduced mod `2 ^ 32`,
which vanishes for `b ≥ 29`. -/
theorem c6_amended_block_length (s : Vec T) (b : Nat) (hb : b < 32)
    (hnull : s.memory_.get? b = some none) :
    ∃ s', allocate_bucket s b = some s' ∧
      s'.memory_.get? b = some (some (List.replicate (bucket_size b) (default : T))) ∧
      (b < 29 → bucket_size b = FIRST_BUCKET_SIZE * 2 ^ b) ∧
      bucket_size b = FIRST_BUCKET_SIZE * 2 ^ b % 2 ^ 32 := by
  have hblen : b < s.memory_.length := by
    obtain ⟨h, _⟩ := List.get?_eq_some.mp hnull
    exact h
  have halloc : allocate_bucket s b =
      some { s with
        memory_ := s.memory_.set b (some (List.replicate (bucket_size b) (default : T))) } := by
    unfold allocate_bucket
    rw [if_neg (by omega), hnull]
  refine ⟨_, halloc, ?_, fun h => bucket_size_eq b h, ?_⟩
  · exact List.get?_set_eq_of_lt _ hblen
  · unfold bucket_size
    have h2b : (2 : Nat) ^ b ≤ 2 ^ 31 := Nat.pow_le_pow_right (by omega) (by omega)
    have h31 : (2 : Nat) ^ 31 = 2147483648 := by norm_num
    have h32 : (2 : Nat) ^ 32 = 4294967296 := by norm_num
    rw [Nat.mod_eq_of_lt (show (2 : Nat) ^ b < 2 ^ 32 by omega)]

/-- Witness for C6 (amended) at bucket 1 of a fresh vector. -/
theorem c6_witness :
    (allocate_bucket (init : Vec Nat) 1).map (fun s => s.memory_.get? 1)
      = some (some (some (List.replicate 16 (0 : Nat)))) ∧ bucket_size 1 = 16 := by
  obtain ⟨s', h1, h2, h3, _⟩ := c6_amended_block_length (init : Vec Nat) 1
    (by decide) (by decide)
  refine ⟨?_, by decide⟩
  rw [h1]
  dsimp only [Option.map]
  rw [h2]
  decide

/-- C7: from every invariant state (with the margin that keeps the
decomposition defined), `push_back v` immediately followed by `pop_back`
returns exactly `v` and restores the previous size. -/
theorem c7_push_pop_roundtrip (s : Vec T) (l : List T) (v : T)
    (hInv : Inv s l) (hcap : l.length + FIRST_BUCKET_SIZE < 2 ^ 32) :
    ∃ s1 s2, push_back s v = some s1 ∧
      pop_back s1 = some (Except.ok v, s2) ∧ size s2 = size s := by
  obtain ⟨s1, hpb, hinv1, _⟩ := push_back_inv s l v hInv hcap
  obtain ⟨s2, hpp, hinv2, _⟩ := pop_back_inv s1 (l ++ [v]) hinv1 (by simp)
  have hval : (l ++ [v]).getD ((l ++ [v]).length - 1) default = v := by
    simp only [List.length_append, List.length_singleton]
    have hsub : l.length + 1 - 1 = l.length := by omega
    rw [hsub, getD_concat_self]
  rw [hval] at hpp
  refine ⟨s1, s2, hpb, hpp, ?_⟩
  have h2 : size s2 = (l ++ [v]).dropLast.length := hinv2.2.1
  have h0 : size s = l.length := hInv.2.1
  simp only [List.dropLast_concat, List.length_append] at h2
  omega

/-- Witness for C7 at the freshly constructed vector. -/
theorem c7_witness :
    (push_back (init : Vec Nat) 11).bind
      (fun s1 => (pop_back s1).map (fun r => (r.1, size r.2)))
      = some (Except.ok 11, 0) := by
  obtain ⟨s1, s2, h1, h2, h3⟩ := c7_push_pop_roundtrip (init : Vec Nat) [] 11
    Inv_init (by norm_num [FIRST_BUCKET_SIZE])
  have h3' : size s2 = 0 := h3
  rw [h1]
  dsimp only [Option.bind]
  rw [h2]
  dsimp only [Option.map]
  rw [h3']

/-- C8: `complete_write` on a write descriptor already marked completed
changes nothing — the state, element slots and descriptor included, is
returned unchanged — and repeated calls leave the state exactly as one
call does: any state produced by `complete_write` is a fixed point of
`complete_write`. -/
theorem c8_complete_write_idempotent (s : Vec T) :
    ((s.descriptor_.pending_write_.all fun w => w.completed_) = true →
      complete_write s = some s) ∧
    (∀ s', complete_write s = some s' → complete_write s' = some s') := by
  refine ⟨fun hp => complete_write_completed s hp, fun s' h => ?_⟩
  cases hw : s.descriptor_.pending_write_ with
  | none =>
    unfold complete_write at h
    rw [hw] at h
    cases h
    exact complete_write_completed s (by rw [hw]; rfl)
  | some w =>
    by_cases hc : w.completed_ = true
    · unfold complete_write at h
      rw [hw] at h
      dsimp only at h
      rw [if_pos hc] at h
      cases h
      exact complete_write_completed s (by rw [hw]; simpa using hc)
    · unfold complete_write at h
      rw [hw] at h
      dsimp only at h
      rw [if_neg hc] at h
      cases hm : s.memory_.get? w.loc_.1 with
      | none =>
        rw [hm] at h
        cases h
      | some mb =>
        rw [hm] at h
        cases mb with
        | none =>
          dsimp only at h
          cases h
        | some block =>
          dsimp only at h
          cases hbg : block.get? w.loc_.2 with
          | none =>
            rw [hbg] at h
            cases h
          | some cur =>
            rw [hbg] at h
            dsimp only at h
            cases h
            apply complete_write_completed
            rfl

/-- Witness for C8: a completed write descriptor is left alone, and a
second call after a first completion changes nothing further. -/
theorem c8_witness :
    complete_write (⟨(init : Vec Nat).memory_, ⟨1, 1, some ⟨(0, 0), 0, 5, true⟩⟩⟩ : Vec Nat)
      = some ⟨(init : Vec Nat).memory_, ⟨1, 1, some ⟨(0, 0), 0, 5, true⟩⟩⟩ ∧
    complete_write (⟨some [5, 0, 0, 0, 0, 0, 0, 0] :: List.replicate 31 none,
        ⟨1, 1, some ⟨(0, 0), 0, 5, true⟩⟩⟩ : Vec Nat)
      = some ⟨some [5, 0, 0, 0, 0, 0, 0, 0] :: List.replicate 31 none,
        ⟨1, 1, some ⟨(0, 0), 0, 5, true⟩⟩⟩ := by
  refine ⟨(c8_complete_write_idempotent _).1 (by decide), ?_⟩
  have h0 : complete_write (⟨some [0, 0, 0, 0, 0, 0, 0, 0] :: List.replicate 31 none,
      ⟨1, 1, some ⟨(0, 0), 0, 5, false⟩⟩⟩ : Vec Nat)
      = some ⟨some [5, 0, 0, 0, 0, 0, 0, 0] :: List.replicate 31 none,
        ⟨1, 1, some ⟨(0, 0), 0, 5, true⟩⟩⟩ := by decide
  exact (c8_complete_write_idempotent _).2 _ h0

/-- `complete_write` never changes the announced size or the counter. -/
theorem complete_write_desc (s s1 : Vec T) (h : complete_write s = some s1) :
    s1.descriptor_.size_ = s.descriptor_.size_ ∧
    s1.descriptor_.counter_ = s.descriptor_.counter_ := by
  cases hw : s.descriptor_.pending_write_ with
  | none =>
    unfold complete_write at h
    rw [hw] at h
    cases h
    exact ⟨rfl, rfl⟩
  | some w =>
    unfold complete_write at h
    rw [hw] at h
    dsimp only at h
    by_cases hc : w.completed_ = true
    · rw [if_pos hc] at h
      cases h
      exact ⟨rfl, rfl⟩
    · rw [if_neg hc] at h
      cases hm : s.memory_.get? w.loc_.1 with
      | none =>
        rw [hm] at h
        cases h
      | some mb =>
        rw [hm] at h
        cases mb with
        | none =>
          dsimp only at h
          cases h
        | some block =>
          dsimp only at h
          cases hbg : block.get? w.loc_.2 with
          | none =>
            rw [hbg] at h
            cases h
          | some cur =>
            rw [hbg] at h
            dsimp only at h
            by_cases hcur : cur = w.old_val_
            · rw [if_pos hcur] at h
              cases h
              exact ⟨rfl, rfl⟩
            · rw [if_neg hcur] at h
              cases h
              exact ⟨rfl, rfl⟩

/-- The helping prologue of `push_back`/`pop_back` never changes the
announced size or the counter. -/
theorem help_desc (s sh : Vec T)
    (h : (if (s.descriptor_.pending_write_).isSome then complete_write s else some s)
      = some sh) :
    sh.descriptor_.size_ = s.descriptor_.size_ ∧
    sh.descriptor_.counter_ = s.descriptor_.counter_ := by
  by_cases hp : (s.descriptor_.pending_write_).isSome
  · rw [if_pos hp] at h
    exact complete_write_desc s sh h
  · rw [if_neg hp] at h
    cases h
    exact ⟨rfl, rfl⟩

/-- A successful `push_back` announces size + 1 and counter
`(old + 1) % 2 ^ 32`. -/
theorem push_back_desc (s s' : Vec T) (v : T) (h : push_back s v = some s') :
    s'.descriptor_.size_ = s.descriptor_.size_ + 1 ∧
    s'.descriptor_.counter_ = (s.descriptor_.counter_ + 1) % 2 ^ 32 := by
  unfold push_back at h
  cases hh : (if (s.descriptor_.pending_write_).isSome then complete_write s else some s) with
  | none =>
    rw [hh] at h
    cases h
  | some sh =>
    rw [hh] at h
    obtain ⟨hhs, hhc⟩ := help_desc s sh hh
    dsimp only at h
    cases hd : decompose sh.descriptor_.size_ with
    | none =>
      rw [hd] at h
      cases h
    | some bi =>
      rw [hd] at h
      dsimp only at h
      cases hm : sh.memory_.get? bi.1 with
      | none =>
        rw [hm] at h
        cases h
      | some mb =>
        rw [hm] at h
        dsimp only at h
        cases ha : (if mb.isNone then allocate_bucket sh bi.1 else some sh) with
        | none =>
          rw [ha] at h
          cases h
        | some s2 =>
          rw [ha] at h
          dsimp only at h
          cases hm2 : s2.memory_.get? bi.1 with
          | none =>
            rw [hm2] at h
            cases h
          | some mb2 =>
            rw [hm2] at h
            cases mb2 with
            | none =>
              dsimp only at h
              cases h
            | some blk =>
              dsimp only at h
              obtain ⟨h1, h2⟩ := complete_write_desc _ s' h
              exact ⟨by rw [h1, hhs], by rw [h2, hhc]⟩

/-- A successful `pop_back` either hit the empty snapshot (error, nothing
changes) or announced size - 1 and counter `(old + 1) % 2 ^ 32`. -/
theorem pop_back_desc (s s' : Vec T) (r : Except String T)
    (h : pop_back s = some (r, s')) :
    (s.descriptor_.size_ = 0 ∧ r = Except.error "empty" ∧
      s'.descriptor_.size_ = 0 ∧ s'.descriptor_.counter_ = s.descriptor_.counter_) ∨
    (s.descriptor_.size_ ≠ 0 ∧ (∃ x, r = Except.ok x) ∧
      s'.descriptor_.size_ = s.descriptor_.size_ - 1 ∧
      s'.descriptor_.counter_ = (s.descriptor_.counter_ + 1) % 2 ^ 32) := by
  unfold pop_back at h
  cases hh : (if (s.descriptor_.pending_write_).isSome then complete_write s else some s) with
  | none =>
    rw [hh] at h
    cases h
  | some sh =>
    rw [hh] at h
    obtain ⟨hhs, hhc⟩ := help_desc s sh hh
    dsimp only at h
    by_cases hz : sh.descriptor_.size_ = 0
    · rw [if_pos hz] at h
      cases h
      exact Or.inl ⟨by omega, rfl, by omega, hhc⟩
    · rw [if_neg hz] at h
      cases hd : decompose (sh.descriptor_.size_ - 1) with
      | none =>
        rw [hd] at h
        cases h
      | some bi =>
        rw [hd] at h
        dsimp only at h
        cases hm : sh.memory_.get? bi.1 with
        | none =>
          rw [hm] at h
          cases h
        | some mb =>
          rw [hm] at h
          cases mb with
          | none =>
            dsimp only at h
            cases h
          | some block =>
            dsimp only at h
            cases hbg : block.get? bi.2 with
            | none =>
              rw [hbg] at h
              cases h
            | some value =>
              rw [hbg] at h
              dsimp only at h
              cases hcw : complete_write
                  { sh with descriptor_ :=
                    { size_ := sh.descriptor_.size_ - 1,
                      counter_ := (sh.descriptor_.counter_ + 1) % 2 ^ 32,
                      pending_write_ := some
                        { loc_ := bi, old_val_ := value, new_val_ := default,
                          completed_ := false } } } with
              | none =>
                rw [hcw] at h
                cases h
              | some s2 =>
                rw [hcw] at h
                dsimp only at h
                cases h
                obtain ⟨h1, h2⟩ := complete_write_desc _ _ hcw
                dsimp only at h1 h2
                refine Or.inr ⟨by omega, ⟨value, rfl⟩, by rw [h1]; omega, by rw [h2]; omega⟩

/-- `write` never touches the descriptor. -/
theorem write_desc (s s' : Vec T) (i : Nat) (v : T) (h : write s i v = some s') :
    s'.descriptor_ = s.descriptor_ := by
  unfold write at h
  cases hd : decompose i with
  | none =>
    rw [hd] at h
    cases h
  | some bi =>
    rw [hd] at h
    dsimp only at h
    cases hm : s.memory_.get? bi.1 with
    | none =>
      rw [hm] at h
      cases h
    | some mb =>
      rw [hm] at h
      cases mb with
      | none =>
        dsimp only at h
        cases h
      | some block =>
        dsimp only at h
        by_cases hlt : bi.2 < block.length
        · rw [if_pos hlt] at h
          cases h
          rfl
        · rw [if_neg hlt] at h
          cases h

/-- Size and counter accounting over a defined run starting from a
representable (`< 2 ^ 32`) counter: the final size follows the push/pop
trace, and the counter equals the starting counter plus the number of
successful publications, reduced mod `2 ^ 32` by the `uint32_t`
arithmetic. -/
theorem run_counter : ∀ (ops : List (Op T)) (s s' : Vec T),
    s.descriptor_.counter_ < 2 ^ 32 →
    run s ops = some s' →
    s'.descriptor_.size_ = sizeAfter s.descriptor_.size_ ops ∧
    s'.descriptor_.counter_ = (s.descriptor_.counter_ + countPush ops
      + succPops s.descriptor_.size_ ops) % 2 ^ 32
  | [], s, s', hlt, hrun => by
    unfold run at hrun
    cases hrun
    refine ⟨rfl, ?_⟩
    simp only [countPush, succPops]
    omega
  | op :: ops, s, s', hlt, hrun => by
    cases hstep : step s op with
    | none =>
      unfold run at hrun
      rw [hstep] at hrun
      cases hrun
    | some s1 =>
      rw [run_cons_some s s1 op ops hstep] at hrun
      cases op with
      | push v =>
        obtain ⟨h1, h2⟩ := push_back_desc s s1 v hstep
        have hlt1 : s1.descriptor_.counter_ < 2 ^ 32 := by omega
        obtain ⟨ih1, ih2⟩ := run_counter ops s1 s' hlt1 hrun
        rw [h1] at ih1 ih2
        rw [h2] at ih2
        simp only [sizeAfter, countPush, succPops]
        refine ⟨ih1, ?_⟩
        rw [ih2]
        omega
      | pop =>
        have hex : ∃ rp, pop_back s = some rp ∧ rp.2 = s1 := by
          cases hpb : pop_back s with
          | none =>
            have hn : step s Op.pop = none := by
              show (pop_back s).map Prod.snd = none
              rw [hpb]
              rfl
            rw [hn] at hstep
            cases hstep
          | some rp =>
            have hsm : step s Op.pop = some rp.2 := by
              show (pop_back s).map Prod.snd = some rp.2
              rw [hpb]
              rfl
            rw [hsm] at hstep
            cases hstep
            exact ⟨rp, rfl, rfl⟩
        obtain ⟨rp, hpb, hrp⟩ := hex
        rcases pop_back_desc s rp.2 rp.1 hpb with
          ⟨hz, _, hs0, hc0⟩ | ⟨hz, _, hs0, hc0⟩
        · rw [hrp] at hs0 hc0
          have hlt1 : s1.descriptor_.counter_ < 2 ^ 32 := by omega
          obtain ⟨ih1, ih2⟩ := run_counter ops s1 s' hlt1 hrun
          simp only [sizeAfter, countPush, succPops]
          rw [if_pos hz]
          rw [hs0] at ih1 ih2
          rw [hc0] at ih2
          have e2 : s.descriptor_.size_ - 1 = 0 := by omega
          rw [e2]
          exact ⟨ih1, ih2⟩
        · rw [hrp] at hs0 hc0
          have hlt1 : s1.descriptor_.counter_ < 2 ^ 32 := by omega
          obtain ⟨ih1, ih2⟩ := run_counter ops s1 s' hlt1 hrun
          simp only [sizeAfter, countPush, succPops]
          rw [if_neg hz]
          rw [hs0] at ih1 ih2
          rw [hc0] at ih2
          refine ⟨ih1, ?_⟩
          rw [ih2]
          omega
      | write i v =>
        have hd := write_desc s s1 i v hstep
        have hlt1 : s1.descriptor_.counter_ < 2 ^ 32 := by rw [hd]; exact hlt
        obtain ⟨ih1, ih2⟩ := run_counter ops s1 s' hlt1 hrun
        rw [hd] at ih1 ih2
        simp only [sizeAfter, countPush, succPops]
        exact ⟨ih1, ih2⟩
      | read i =>
        have hs1 : s1 = s := by
          have h0 : (read s i).map (fun _ => s) = some s1 := hstep
          cases hr : read s i with
          | none =>
            rw [hr] at h0
            cases h0
          | some x =>
            rw [hr] at h0
            cases h0
            rfl
        subst hs1
        obtain ⟨ih1, ih2⟩ := run_counter ops _ s' hlt hrun
        simp only [sizeAfter, countPush, succPops]
        exact ⟨ih1, ih2⟩

/-- C5 (code-bug demonstration): the push protocol relies on fresh bucket
slots holding `T()` — the write descriptor announced by `push_back`
carries `old_val_ = T()`.  On a state whose bucket-0 block holds a nonzero
residue (exactly what `new int[8]` may leave behind for the trivially
copyable `T = int` that the tests and the benchmark instantiate, since
`new T[n]` default-initializes and leaves scalars indeterminate),
`push_back 5` "succeeds" — size becomes 1, the descriptor is published,
the CAS inside `complete_write` fails against the residue, the descriptor
is still marked completed — and the pushed value is silently lost:
`read 0` returns the residue 7, not 5. -/
theorem c5_uninitialized_block_loses_push :
    (push_back (⟨some [7, 7, 7, 7, 7, 7, 7, 7] :: List.replicate 31 none,
        ⟨0, 0, none⟩⟩ : Vec Nat) 5).map (fun s => (size s, read s 0))
      = some (1, some 7) := by decide

/-- C9 counterexample: `counter_` is a `uint32_t` and wraps.  On an
invariant empty-vector state whose descriptor carries counter `2 ^ 32 - 1`
(reachable by `2 ^ 32 - 1` publications, e.g. a push followed by
alternating pops and pushes), a successful `push_back` installs a
descriptor whose counter is `(2 ^ 32 - 1 + 1) % 2 ^ 32 = 0`: the counter
of the newly installed descriptor is smaller than its predecessor's, so it
neither strictly increases along installed descriptors nor equals the
total number of successful publications. -/
theorem c9_counterexample :
    Inv (⟨(init : Vec Nat).memory_, ⟨0, 2 ^ 32 - 1, none⟩⟩ : Vec Nat) [] ∧
    (push_back (⟨(init : Vec Nat).memory_, ⟨0, 2 ^ 32 - 1, none⟩⟩ : Vec Nat) 5).map
      (fun s => s.descriptor_.counter_) = some 0 ∧
    ¬ ((⟨(init : Vec Nat).memory_, ⟨0, 2 ^ 32 - 1, none⟩⟩ : Vec Nat).descriptor_.counter_
        < (0 : Nat)) := by
  refine ⟨by decide, by decide, by decide⟩

/-- C9 amended: the counter arithmetic is the source's `uint32_t`
arithmetic, mod `2 ^ 32`.  Over every defined single-threaded run from a
fresh vector the counter of the current descriptor equals the total number
of successful state-changing publications (every push, every non-empty
pop) reduced mod `2 ^ 32`; each such publication installs a descriptor
with counter exactly `(old + 1) % 2 ^ 32` — strictly one larger as long as
fewer than `2 ^ 32` publications have occurred — and `write` installs no
descriptor at all. -/
theorem c9_amended_counter_mod_publications (ops : List (Op T)) (s' : Vec T)
    (hrun : run init ops = some s') :
    s'.descriptor_.counter_ = (countPush ops + succPops 0 ops) % 2 ^ 32 ∧
    (∀ (s s1 : Vec T) (v : T), push_back s v = some s1 →
      s1.descriptor_.counter_ = (s.descriptor_.counter_ + 1) % 2 ^ 32) ∧
    (∀ (s s1 : Vec T) (x : T), pop_back s = some (Except.ok x, s1) →
      s1.descriptor_.counter_ = (s.descriptor_.counter_ + 1) % 2 ^ 32) ∧
    (∀ (s s1 : Vec T) (i : Nat) (v : T), write s i v = some s1 →
      s1.descriptor_ = s.descriptor_) := by
  refine ⟨?_, fun s s1 v h => (push_back_desc s s1 v h).2, fun s s1 x h => ?_,
    fun s s1 i v h => write_desc s s1 i v h⟩
  · have h0 : (init : Vec T).descriptor_.counter_ = 0 := rfl
    have h0s : (init : Vec T).descriptor_.size_ = 0 := rfl
    have h := run_counter ops init s' (by rw [h0]; norm_num) hrun
    rw [h0, h0s] at h
    omega
  · rcases pop_back_desc s s1 (Except.ok x) h with ⟨_, hr, _, _⟩ | ⟨_, _, _, hc⟩
    · cases hr
    · exact hc

/-- Witness for C9 (amended) at the concrete run push 5; pop; pop (the
second pop hits the empty vector and publishes nothing). -/
theorem c9_witness :
    run (init : Vec Nat) [Op.push 5, Op.pop, Op.pop] =
      some ⟨some [0, 0, 0, 0, 0, 0, 0, 0] :: List.replicate 31 none,
        ⟨0, 2, some ⟨(0, 0), 5, 0, true⟩⟩⟩ ∧
    (⟨some [0, 0, 0, 0, 0, 0, 0, 0] :: List.replicate 31 none,
        ⟨0, 2, some ⟨(0, 0), 5, 0, true⟩⟩⟩ : Vec Nat).descriptor_.counter_
      = (countPush [Op.push (5 : Nat), Op.pop, Op.pop]
        + succPops 0 [Op.push (5 : Nat), Op.pop, Op.pop]) % 2 ^ 32 := by
  have hrun : run (init : Vec Nat) [Op.push 5, Op.pop, Op.pop] =
      some ⟨some [0, 0, 0, 0, 0, 0, 0, 0] :: List.replicate 31 none,
        ⟨0, 2, some ⟨(0, 0), 5, 0, true⟩⟩⟩ := by decide
  exact ⟨hrun, (c9_amended_counter_mod_publications _ _ hrun).1⟩

/-- C10: a successful `push_back` or `pop_back` leaves every element slot
below the boundary index untouched: for each index `i` smaller than both
the old and the new size, `read i` returns the same value afterwards as
before. -/
theorem c10_frame_boundary_slot (s : Vec T) (l : List T) (hInv : Inv s l) :
    (∀ (v : T), l.length + FIRST_BUCKET_SIZE < 2 ^ 32 →
      ∀ s1, push_back s v = some s1 →
      ∀ i, i < l.length → read s1 i = read s i) ∧
    (∀ r s1, pop_back s = some (r, s1) →
      ∀ i, i < l.length - 1 → read s1 i = read s i) := by
  constructor
  · intro v hcap s1 hpb i hi
    obtain ⟨s1', hpb', hinv1, _⟩ := push_back_inv s l v hInv hcap
    rw [hpb'] at hpb
    cases hpb
    rw [read_eq s1 (l ++ [v]) hinv1 i (by simp; omega),
      read_eq s l hInv i hi, getD_append_lt l [v] i default hi]
  · intro r s1 hpp i hi
    by_cases hl : l = []
    · subst hl
      simp at hi
    · obtain ⟨s1', hpp', hinv1, _⟩ := pop_back_inv s l hInv hl
      rw [hpp'] at hpp
      cases hpp
      rw [read_eq s1 l.dropLast hinv1 i (by rw [List.length_dropLast]; omega),
        read_eq s l hInv i (by omega), getD_dropLast l i default hi]

/-- Witness for C10: after pushing 7 and 8, popping leaves index 0
reading the same value as before. -/
theorem c10_witness :
    Inv (⟨some [7, 8, 0, 0, 0, 0, 0, 0] :: List.replicate 31 none,
      ⟨2, 2, some ⟨(0, 1), 0, 8, true⟩⟩⟩ : Vec Nat) [7, 8] ∧
    pop_back (⟨some [7, 8, 0, 0, 0, 0, 0, 0] :: List.replicate 31 none,
      ⟨2, 2, some ⟨(0, 1), 0, 8, true⟩⟩⟩ : Vec Nat)
      = some (Except.ok 8, ⟨some [7, 0, 0, 0, 0, 0, 0, 0] :: List.replicate 31 none,
        ⟨1, 3, some ⟨(0, 1), 8, 0, true⟩⟩⟩) ∧
    read (⟨some [7, 0, 0, 0, 0, 0, 0, 0] :: List.replicate 31 none,
        ⟨1, 3, some ⟨(0, 1), 8, 0, true⟩⟩⟩ : Vec Nat) 0
      = read (⟨some [7, 8, 0, 0, 0, 0, 0, 0] :: List.replicate 31 none,
        ⟨2, 2, some ⟨(0, 1), 0, 8, true⟩⟩⟩ : Vec Nat) 0 := by
  have hinv : Inv (⟨some [7, 8, 0, 0, 0, 0, 0, 0] :: List.replicate 31 none,
      ⟨2, 2, some ⟨(0, 1), 0, 8, true⟩⟩⟩ : Vec Nat) [7, 8] := by decide
  have hpp : pop_back (⟨some [7, 8, 0, 0, 0, 0, 0, 0] :: List.replicate 31 none,
      ⟨2, 2, some ⟨(0, 1), 0, 8, true⟩⟩⟩ : Vec Nat)
      = some (Except.ok 8, ⟨some [7, 0, 0, 0, 0, 0, 0, 0] :: List.replicate 31 none,
        ⟨1, 3, some ⟨(0, 1), 8, 0, true⟩⟩⟩) := by decide
  exact ⟨hinv, hpp,
    (c10_frame_boundary_slot _ [7, 8] hinv).2 _ _ hpp 0 (by decide)⟩

end LockFreeVector
